import Mathlib

/-!
Verification of the combinatorial enumeration library (three Rust source
files: src/combinations.rs, src/permutations.rs, src/lib.rs) against its
natural-language specification.

The Rust code is shallowly embedded: each iterator struct becomes a Lean
structure, each `&mut self` method becomes a pure function from the old state
to the new state (returning any produced value alongside), `usize` becomes
`Nat` (with the truncated subtraction of `Nat` standing in for the release
mode wrap-around of unreachable underflows, noted where they occur), and the
`panic!` / out-of-bounds-index paths of the permutations engine are modeled
with `Except Unit`, where `Except.error ()` marks a panic.
-/

section Helpers

variable {T : Type}

/-- Insert a value into a strictly sorted list, keeping it sorted and
deduplicated.  Together with `iterable_to_sorted_set` below this models
collecting into a `BTreeSet` (an ordered set) in the Rust sources. -/
def sortedInsert [LinearOrder T] (x : T) : List T → List T
  | [] => [x]
  | y :: ys =>
    if x < y then x :: y :: ys
    else if y < x then y :: sortedInsert x ys
    else y :: ys

/-- Model of `iterable_to_sorted_set` (src/combinations.rs lines 28-34 and
src/lib.rs lines 15-21): collect the input into a sorted set, then into a
vector, yielding the sorted duplicate-free list of the input's values. -/
def iterable_to_sorted_set [LinearOrder T] (elements : List T) : List T :=
  elements.foldl (fun acc x => sortedInsert x acc) []

/-- Look up each index of `ps` in `es`.  This models
`ps.iter().map(|p| es.get(*p).unwrap().clone()).collect()`; a `none` result
corresponds to the `unwrap` panic on an out-of-range index (unreachable from
the engines' constructors). -/
def getElems (es : List T) : List ℕ → Option (List T)
  | [] => some []
  | i :: is =>
    match es[i]? with
    | none => none
    | some x =>
      match getElems es is with
      | none => none
      | some xs => some (x :: xs)

end Helpers

/-! ## The Combinations engine (src/combinations.rs lines 19-165) -/

/-- State of the `Combinations` iterator (src/combinations.rs lines 19-24). -/
structure Combinations (T : Type) where
  elements : List T
  positions : List ℕ
  all_sizes : Bool
  done : Bool

/-- Core of `Combinations::move_to_next_position` (src/combinations.rs lines
112-133): the Rust loop scans position indices from the last to the first;
this recursion tries the tail (the later indices) first and only then the
head, which is the same search order.  On success the chosen position is
incremented and every later position is reset to consecutive values.
`N - 1 ≤ p` is the `cur_position >= self.elements.len() - 1` skip (the
caller ensures `N > 0`), and `p < q - 1` is `cur_position <
positions[index+1] - 1` with `usize` subtraction (under the strictly
increasing invariant `q ≥ 1`, where `Nat` and `usize` subtraction agree). -/
def mtnpGo (N : ℕ) : List ℕ → Option (List ℕ)
  | [] => none
  | p :: rest =>
    match mtnpGo N rest with
    | some rest2 => some (p :: rest2)
    | none =>
      if N - 1 ≤ p then none
      else
        match rest with
        | [] => some [p + 1]
        | q :: _ =>
          if p < q - 1 then some ((p + 1) :: List.range' (p + 2) rest.length)
          else none

/-- Model of `Combinations::move_to_next_position` (src/combinations.rs lines
112-133).  Returning `some ps` models the method returning `true` after
setting `self.positions = ps`; `none` models returning `false`. -/
def Combinations.move_to_next_position {T : Type} (c : Combinations T) : Option (List ℕ) :=
  if c.elements.length = 0 then none
  else mtnpGo c.elements.length c.positions

/-- Model of `Combinations::move_to_next_set_size` (src/combinations.rs lines
97-107): if another position fits, reset all positions to `0,1,...` and push
one more, i.e. produce `[0, 1, ..., len]`. -/
def Combinations.move_to_next_set_size {T : Type} (c : Combinations T) : Option (List ℕ) :=
  if c.elements.length ≤ c.positions.length then none
  else some (List.range (c.positions.length + 1))

/-- Model of `Combinations::get_current_combination` (src/combinations.rs
lines 136-146). -/
def Combinations.get_current_combination {T : Type} (c : Combinations T) : Option (List T) :=
  if c.done then none
  else if c.elements.length < c.positions.length then none
  else getElems c.elements c.positions

/-- Model of `<Combinations as Iterator>::next` (src/combinations.rs lines
153-164): capture the current combination, then advance the positions, or
grow the set size (in all-sizes mode), or mark the iterator done. -/
def Combinations.next {T : Type} (c : Combinations T) : Option (List T) × Combinations T :=
  if c.done then (none, c)
  else
    let combo := c.get_current_combination
    match c.move_to_next_position with
    | some ps => (combo, { c with positions := ps })
    | none =>
      if c.all_sizes then
        match c.move_to_next_set_size with
        | some ps => (combo, { c with positions := ps })
        | none => (combo, { c with done := true })
      else (combo, { c with done := true })

/-- Model of `Combinations::all` (src/combinations.rs lines 56-63). -/
def Combinations.all {T : Type} [LinearOrder T] (elements : List T) : Combinations T :=
  ⟨iterable_to_sorted_set elements, [], true, false⟩

/-- Model of `Combinations::of_size` (src/combinations.rs lines 86-93);
`(0..size).collect()` is `List.range size`. -/
def Combinations.of_size {T : Type} [LinearOrder T] (elements : List T) (size : ℕ) :
    Combinations T :=
  ⟨iterable_to_sorted_set elements, List.range size, false, false⟩

/-- The sequence of combinations produced by repeatedly calling `next`,
collected until the iterator signals end-of-sequence (or `fuel` runs out). -/
def Combinations.outputs {T : Type} (c : Combinations T) : ℕ → List (List T)
  | 0 => []
  | fuel + 1 =>
    match Combinations.next c with
    | (none, _) => []
    | (some x, c2) => x :: Combinations.outputs c2 fuel

/-- The state after one `next` call (used to talk about repeated calls). -/
def Combinations.stepState {T : Type} (c : Combinations T) : Combinations T :=
  (Combinations.next c).2

/-! ## The CombinationsWithReplacement engine (src/combinations.rs lines 192-326) -/

/-- State of the `CombinationsWithReplacement` iterator (src/combinations.rs
lines 192-197). -/
structure CombinationsWithReplacement (T : Type) where
  elements : List T
  positions : List ℕ
  all_sizes : Bool
  done : Bool

/-- Core of `CombinationsWithReplacement::move_to_next_position`
(src/combinations.rs lines 277-294): scanning from the last index to the
first, the first position whose value is below `N - 1` is found; that
position and every later one are all set to `value + 1`. -/
def cwrGo (N : ℕ) : List ℕ → Option (List ℕ)
  | [] => none
  | p :: rest =>
    match cwrGo N rest with
    | some rest2 => some (p :: rest2)
    | none =>
      if N - 1 ≤ p then none
      else some ((p + 1) :: List.replicate rest.length (p + 1))

/-- Model of `CombinationsWithReplacement::move_to_next_position`
(src/combinations.rs lines 277-294). -/
def CombinationsWithReplacement.move_to_next_position {T : Type}
    (c : CombinationsWithReplacement T) : Option (List ℕ) :=
  if c.elements.length = 0 then none
  else cwrGo c.elements.length c.positions

/-- Model of `CombinationsWithReplacement::move_to_next_set_size`
(src/combinations.rs lines 265-272): reset every position to 0 and push one
more zero. -/
def CombinationsWithReplacement.move_to_next_set_size {T : Type}
    (c : CombinationsWithReplacement T) : Option (List ℕ) :=
  if c.elements.length ≤ c.positions.length then none
  else some (List.replicate (c.positions.length + 1) 0)

/-- Model of `CombinationsWithReplacement::get_current_combination`
(src/combinations.rs lines 297-307). -/
def CombinationsWithReplacement.get_current_combination {T : Type}
    (c : CombinationsWithReplacement T) : Option (List T) :=
  if c.done then none
  else if c.elements.length < c.positions.length then none
  else getElems c.elements c.positions

/-- Model of `<CombinationsWithReplacement as Iterator>::next`
(src/combinations.rs lines 314-325). -/
def CombinationsWithReplacement.next {T : Type} (c : CombinationsWithReplacement T) :
    Option (List T) × CombinationsWithReplacement T :=
  if c.done then (none, c)
  else
    let combo := c.get_current_combination
    match c.move_to_next_position with
    | some ps => (combo, { c with positions := ps })
    | none =>
      if c.all_sizes then
        match c.move_to_next_set_size with
        | some ps => (combo, { c with positions := ps })
        | none => (combo, { c with done := true })
      else (combo, { c with done := true })

/-- Model of `CombinationsWithReplacement::all` (src/combinations.rs lines
221-228). -/
def CombinationsWithReplacement.all {T : Type} [LinearOrder T] (elements : List T) :
    CombinationsWithReplacement T :=
  ⟨iterable_to_sorted_set elements, [], true, false⟩

/-- Model of `CombinationsWithReplacement::of_size` (src/combinations.rs
lines 254-261); `vec![0; size]` is `List.replicate size 0`. -/
def CombinationsWithReplacement.of_size {T : Type} [LinearOrder T] (elements : List T)
    (size : ℕ) : CombinationsWithReplacement T :=
  ⟨iterable_to_sorted_set elements, List.replicate size 0, false, false⟩

/-- The sequence of results produced by repeated `next` calls. -/
def CombinationsWithReplacement.outputs {T : Type} (c : CombinationsWithReplacement T) :
    ℕ → List (List T)
  | 0 => []
  | fuel + 1 =>
    match CombinationsWithReplacement.next c with
    | (none, _) => []
    | (some x, c2) => x :: CombinationsWithReplacement.outputs c2 fuel

/-- The state after one `next` call. -/
def CombinationsWithReplacement.stepState {T : Type} (c : CombinationsWithReplacement T) :
    CombinationsWithReplacement T :=
  (CombinationsWithReplacement.next c).2

/-! ## The Permutations engine (src/permutations.rs) -/

/-- A doubly linked list node (src/permutations.rs lines 1-6). -/
structure Entry where
  prev : Option ℕ
  next : Option ℕ
  deriving DecidableEq

/-- The available-index free list (src/permutations.rs lines 8-10). -/
structure AvailableList where
  entries : List Entry
  deriving DecidableEq

/-- Model of `AvailableList::new` (src/permutations.rs lines 15-34): a
sentinel head at index 0, nodes `1..num_elements` linked in order, and a
final node `num_elements` with no successor.  For `num_elements = 0` the
source computes `num_elements - 1` on a `usize`, which underflows (a debug
panic); that garbage `prev` link is modeled by `Nat` truncated subtraction
(`some 0`) and is never read, because the list is only consumed through
`remove_first` under `perm_length ≤ num_elements = 0`. -/
def AvailableList.new (num_elements : ℕ) : AvailableList :=
  ⟨⟨none, some 1⟩ ::
    ((List.range' 1 (num_elements - 1)).map (fun i => ⟨some (i - 1), some (i + 1)⟩) ++
      [⟨some (num_elements - 1), none⟩])⟩

/-- Read the entry at index `i`; indexing in the source (`self.entries[i]`)
is always in range on the reachable states (the `debug_assert!`s), so the
default entry is never produced. -/
def AvailableList.getEntry (al : AvailableList) (i : ℕ) : Entry :=
  al.entries.getD i ⟨none, none⟩

/-- Overwrite the `next` link of the entry at index `i`. -/
def AvailableList.setNextAt (al : AvailableList) (i : ℕ) (v : Option ℕ) : AvailableList :=
  ⟨al.entries.set i ⟨(al.getEntry i).prev, v⟩⟩

/-- Overwrite the `prev` link of the entry at index `i`. -/
def AvailableList.setPrevAt (al : AvailableList) (i : ℕ) (v : Option ℕ) : AvailableList :=
  ⟨al.entries.set i ⟨v, (al.getEntry i).next⟩⟩

/-- Model of `AvailableList::remove` (src/permutations.rs lines 47-58): read
the node's links, then repoint its neighbors at each other.  The node's own
stored links are left untouched. -/
def AvailableList.remove (al : AvailableList) (i : ℕ) : AvailableList :=
  let prev := (al.getEntry i).prev
  let next := (al.getEntry i).next
  let al1 :=
    match prev with
    | some p => al.setNextAt p next
    | none => al
  match next with
  | some n => al1.setPrevAt n prev
  | none => al1

/-- Model of `AvailableList::add` (src/permutations.rs lines 63-72): relink
the node using its stored neighbor links.  The second read of
`self.entries[i].next` happens after the first mutation, as in the source. -/
def AvailableList.add (al : AvailableList) (i : ℕ) : AvailableList :=
  let al1 :=
    match (al.getEntry i).prev with
    | some p => al.setNextAt p (some i)
    | none => al
  match (al1.getEntry i).next with
  | some n => al1.setPrevAt n (some i)
  | none => al1

/-- Model of `AvailableList::remove_first` (src/permutations.rs lines
37-43). -/
def AvailableList.remove_first (al : AvailableList) : Option ℕ × AvailableList :=
  match (al.getEntry 0).next with
  | none => (none, al)
  | some i => (some i, al.remove i)

/-- Model of `AvailableList::swap_for_next` (src/permutations.rs lines
77-87): `next` is read before the `add`, as in the source. -/
def AvailableList.swap_for_next (al : AvailableList) (i : ℕ) : Option ℕ × AvailableList :=
  let next := (al.getEntry i).next
  let al1 := al.add i
  match next with
  | none => (none, al1)
  | some n => (some n, al1.remove n)

/-- State of the `Permutations` iterator (src/permutations.rs lines
116-123).  The Rust `Vec` stack pushes and pops at its end; here the top of
the stack is the HEAD of the list, so the emitted permutation reads the
stack in reverse. -/
structure Permutations (T : Type) where
  elements : List T
  avail_list : AvailableList
  stack : List ℕ
  perm_length : ℕ
  all_sizes : Bool
  done : Bool

/-- The `for _ in self.stack.len()..self.perm_length` loop of
`fill_remaining_perm`: repeatedly remove the first available entry and push
it; an exhausted available list is the `panic!` (modeled as
`Except.error ()`). -/
def fillGo {T : Type} : ℕ → Permutations T → Except Unit (Permutations T)
  | 0, s => Except.ok s
  | n + 1, s =>
    match s.avail_list.remove_first with
    | (none, _) => Except.error ()
    | (some i, al) => fillGo n { s with avail_list := al, stack := i :: s.stack }

/-- Model of `Permutations::fill_remaining_perm` (src/permutations.rs lines
201-217): if the target length exceeds the number of elements, set `done`
and report `false`; otherwise pull entries off the available list until the
stack holds `perm_length` entries, panicking (`Except.error`) if the list
runs dry. -/
def Permutations.fill_remaining_perm {T : Type} (s : Permutations T) :
    Except Unit (Bool × Permutations T) :=
  if s.elements.length < s.perm_length then Except.ok (false, { s with done := true })
  else (fillGo (s.perm_length - s.stack.length) s).map (fun s2 => (true, s2))

/-- Model of `Permutations::from_vec_with_size_constraints`
(src/permutations.rs lines 173-195); the constructor runs the fill routine
once and keeps the resulting state. -/
def Permutations.from_vec_with_size_constraints {T : Type} (elements : List T)
    (perm_length : ℕ) (all_sizes : Bool) : Except Unit (Permutations T) :=
  (Permutations.fill_remaining_perm
      ⟨elements, AvailableList.new elements.length, [], perm_length, all_sizes, false⟩).map
    (fun x => x.2)

/-- Model of `Permutations::new` (src/permutations.rs lines 157-161). -/
def Permutations.new {T : Type} (elements : List T) : Except Unit (Permutations T) :=
  Permutations.from_vec_with_size_constraints elements elements.length false

/-- Model of `Permutations::of_length` (src/permutations.rs lines 163-166). -/
def Permutations.of_length {T : Type} (elements : List T) (perm_length : ℕ) :
    Except Unit (Permutations T) :=
  Permutations.from_vec_with_size_constraints elements perm_length false

/-- Model of `Permutations::all` (src/permutations.rs lines 168-171). -/
def Permutations.all {T : Type} (elements : List T) : Except Unit (Permutations T) :=
  Permutations.from_vec_with_size_constraints elements 0 true

/-- The backtracking `loop` of `<Permutations as Iterator>::next`
(src/permutations.rs lines 233-268), structurally recursive on the stack
being popped.  `ok (true, s)` is the `break` (a next permutation is staged);
`ok (false, s)` is the in-loop `return None`.  In the fill-failure branch
`fill_remaining_perm` has returned `false` from its first branch only, which
leaves the stack untouched, so the `continue` proceeds with the popped stack
`rest`. -/
def permLoopGo {T : Type} : List ℕ → Permutations T → Except Unit (Bool × Permutations T)
  | [], s =>
    if s.all_sizes then
      Permutations.fill_remaining_perm
        { s with stack := [], perm_length := s.perm_length + 1 }
    else Except.ok (false, { s with stack := [], done := true })
  | curr_last :: rest, s =>
    match s.avail_list.swap_for_next curr_last with
    | (none, al2) => permLoopGo rest { s with stack := rest, avail_list := al2 }
    | (some nxt, al2) =>
      match Permutations.fill_remaining_perm { s with stack := rest, avail_list := al2 } with
      | Except.error e => Except.error e
      | Except.ok (false, s2) =>
        permLoopGo rest { s2 with stack := rest, avail_list := s2.avail_list.add nxt }
      | Except.ok (true, s2) => Except.ok (true, { s2 with stack := nxt :: s2.stack })

/-- Model of `<Permutations as Iterator>::next` (src/permutations.rs lines
224-270): capture the current permutation (`elements[i - 1]` for each stack
entry, bottom first — an out-of-range index is the slice-index panic), run
the backtracking loop, and return the captured permutation if the loop
broke, or end-of-sequence if it returned. -/
def Permutations.next {T : Type} (s : Permutations T) :
    Except Unit (Option (List T) × Permutations T) :=
  if s.done then Except.ok (none, s)
  else
    match getElems s.elements (s.stack.reverse.map (fun i => i - 1)) with
    | none => Except.error ()
    | some perm =>
      match permLoopGo s.stack s with
      | Except.error e => Except.error e
      | Except.ok (true, s2) => Except.ok (some perm, s2)
      | Except.ok (false, s2) => Except.ok (none, s2)

/-- The sequence of permutations produced by repeated `next` calls, stopping
at end-of-sequence or at a panic. -/
def Permutations.outputs {T : Type} (s : Permutations T) : ℕ → List (List T)
  | 0 => []
  | fuel + 1 =>
    match Permutations.next s with
    | Except.ok (some x, s2) => x :: Permutations.outputs s2 fuel
    | _ => []

/-! ## The duplicate Combinations engine of src/lib.rs (lines 6-116)

The crate root contains its own copy of the `Combinations` iterator, textually
identical to the one in src/combinations.rs.  It is embedded separately so
that the behavioral equivalence of the two definitions can be stated. -/

/-- State of the `Combinations` iterator of src/lib.rs (lines 6-11). -/
structure Lib.Combinations (T : Type) where
  elements : List T
  positions : List ℕ
  all_sizes : Bool
  done : Bool

/-- Model of `iterable_to_sorted_set` of src/lib.rs (lines 15-21), which has
the same body as the one in src/combinations.rs. -/
def Lib.iterable_to_sorted_set {T : Type} [LinearOrder T] (elements : List T) : List T :=
  elements.foldl (fun acc x => sortedInsert x acc) []

/-- Core of `Combinations::move_to_next_position` of src/lib.rs (lines
63-84), same loop as in src/combinations.rs. -/
def Lib.mtnpGo (N : ℕ) : List ℕ → Option (List ℕ)
  | [] => none
  | p :: rest =>
    match Lib.mtnpGo N rest with
    | some rest2 => some (p :: rest2)
    | none =>
      if N - 1 ≤ p then none
      else
        match rest with
        | [] => some [p + 1]
        | q :: _ =>
          if p < q - 1 then some ((p + 1) :: List.range' (p + 2) rest.length)
          else none

/-- Model of `Combinations::move_to_next_position` of src/lib.rs (lines
63-84). -/
def Lib.Combinations.move_to_next_position {T : Type} (c : Lib.Combinations T) :
    Option (List ℕ) :=
  if c.elements.length = 0 then none
  else Lib.mtnpGo c.elements.length c.positions

/-- Model of `Combinations::move_to_next_set_size` of src/lib.rs (lines
48-58). -/
def Lib.Combinations.move_to_next_set_size {T : Type} (c : Lib.Combinations T) :
    Option (List ℕ) :=
  if c.elements.length ≤ c.positions.length then none
  else some (List.range (c.positions.length + 1))

/-- Model of `Combinations::get_current_combination` of src/lib.rs (lines
87-97). -/
def Lib.Combinations.get_current_combination {T : Type} (c : Lib.Combinations T) :
    Option (List T) :=
  if c.done then none
  else if c.elements.length < c.positions.length then none
  else getElems c.elements c.positions

/-- Model of `<Combinations as Iterator>::next` of src/lib.rs (lines
104-115). -/
def Lib.Combinations.next {T : Type} (c : Lib.Combinations T) :
    Option (List T) × Lib.Combinations T :=
  if c.done then (none, c)
  else
    let combo := c.get_current_combination
    match c.move_to_next_position with
    | some ps => (combo, { c with positions := ps })
    | none =>
      if c.all_sizes then
        match c.move_to_next_set_size with
        | some ps => (combo, { c with positions := ps })
        | none => (combo, { c with done := true })
      else (combo, { c with done := true })

/-- Model of `Combinations::all` of src/lib.rs (lines 26-33). -/
def Lib.Combinations.all {T : Type} [LinearOrder T] (elements : List T) :
    Lib.Combinations T :=
  ⟨Lib.iterable_to_sorted_set elements, [], true, false⟩

/-- Model of `Combinations::of_size` of src/lib.rs (lines 37-44). -/
def Lib.Combinations.of_size {T : Type} [LinearOrder T] (elements : List T) (size : ℕ) :
    Lib.Combinations T :=
  ⟨Lib.iterable_to_sorted_set elements, List.range size, false, false⟩

/-- The sequence of results produced by the src/lib.rs engine. -/
def Lib.Combinations.outputs {T : Type} (c : Lib.Combinations T) : ℕ → List (List T)
  | 0 => []
  | fuel + 1 =>
    match Lib.Combinations.next c with
    | (none, _) => []
    | (some x, c2) => x :: Lib.Combinations.outputs c2 fuel

/-- Transport a src/lib.rs engine state to a src/combinations.rs engine
state (the two structures have the same fields). -/
def libToMod {T : Type} (c : Lib.Combinations T) : Combinations T :=
  ⟨c.elements, c.positions, c.all_sizes, c.done⟩

/-! ## Canonical enumeration lists (specification-side, used by the proofs)

`combs l k` is the list of all strictly increasing `k`-element sublists of
`l`, in lexicographic order when `l` is sorted; `cwr l k` is the list of all
non-decreasing `k`-element sequences over `l`, in lexicographic order.  Both
are defined independently of the engines and are related to them by the
chain lemmas below. -/

/-- All strictly increasing selections of `k` values from `l` (in order), in
lexicographic order of selections. -/
def combs : List ℕ → ℕ → List (List ℕ)
  | _, 0 => [[]]
  | [], _ + 1 => []
  | x :: xs, k + 1 => (combs xs k).map (fun p => x :: p) ++ combs xs (k + 1)

/-- Helper for `cwr`: all non-decreasing selections of the given length whose
first value is drawn from `x :: xs`, where `cwrXs` enumerates selections over
`xs` alone. -/
def cwrAux (cwrXs : ℕ → List (List ℕ)) (x : ℕ) : ℕ → List (List ℕ)
  | 0 => [[]]
  | k + 1 => (cwrAux cwrXs x k).map (fun p => x :: p) ++ cwrXs (k + 1)

/-- All non-decreasing `k`-element sequences over the values of `l` (in
order), in lexicographic order. -/
def cwr : List ℕ → ℕ → List (List ℕ)
  | [], 0 => [[]]
  | [], _ + 1 => []
  | x :: xs, k => cwrAux (cwr xs) x k

/-- The combined position-advance of the combination engines: try
`move_to_next_position` first, then (in all-sizes mode)
`move_to_next_set_size`.  `none` means the engine marks itself done. -/
def posAdv (allSizes : Bool) (N : ℕ) (ps : List ℕ) : Option (List ℕ) :=
  match (if N = 0 then none else mtnpGo N ps) with
  | some q => some q
  | none =>
    if allSizes then
      (if N ≤ ps.length then none else some (List.range (ps.length + 1)))
    else none

/-- The combined position-advance of the replacement engine. -/
def posAdvW (allSizes : Bool) (N : ℕ) (ps : List ℕ) : Option (List ℕ) :=
  match (if N = 0 then none else cwrGo N ps) with
  | some q => some q
  | none =>
    if allSizes then
      (if N ≤ ps.length then none else some (List.replicate (ps.length + 1) 0))
    else none

/-- The size-then-lexicographic strict order on emitted results: shorter
results come first, results of equal length are compared lexicographically
by the element order. -/
def sizeLex {T : Type} [LT T] (x y : List T) : Prop :=
  x.length < y.length ∨ (x.length = y.length ∧ List.Lex (· < ·) x y)

/-! ## Properties of the domain normalizer -/

theorem mem_sortedInsert {T : Type} [LinearOrder T] {x y : T} {l : List T} :
    y ∈ sortedInsert x l ↔ y = x ∨ y ∈ l := by
  induction l with
  | nil => simp [sortedInsert]
  | cons z zs ih =>
    by_cases h1 : x < z
    · simp only [sortedInsert, if_pos h1, List.mem_cons]
    · by_cases h2 : z < x
      · simp only [sortedInsert, if_neg h1, if_pos h2, List.mem_cons, ih]
        tauto
      · have hxz : x = z := le_antisymm (not_lt.mp h2) (not_lt.mp h1)
        subst hxz
        simp only [sortedInsert, if_neg (lt_irrefl x), List.mem_cons]
        tauto

theorem sortedInsert_sorted {T : Type} [LinearOrder T] (x : T) :
    ∀ l : List T, l.Pairwise (· < ·) → (sortedInsert x l).Pairwise (· < ·) := by
  intro l
  induction l with
  | nil => intro _; simp [sortedInsert]
  | cons y ys ih =>
    intro h
    rw [List.pairwise_cons] at h
    by_cases h1 : x < y
    · simp only [sortedInsert, if_pos h1]
      refine List.pairwise_cons.mpr ⟨?_, List.pairwise_cons.mpr h⟩
      intro b hb
      rcases List.mem_cons.mp hb with hb | hb
      · exact hb ▸ h1
      · exact lt_trans h1 (h.1 b hb)
    · by_cases h2 : y < x
      · simp only [sortedInsert, if_neg h1, if_pos h2]
        refine List.pairwise_cons.mpr ⟨?_, ih h.2⟩
        intro b hb
        rcases mem_sortedInsert.mp hb with hb | hb
        · exact hb ▸ h2
        · exact h.1 b hb
      · simp only [sortedInsert, if_neg h1, if_neg h2]
        exact List.pairwise_cons.mpr h

theorem foldl_sortedInsert_sorted {T : Type} [LinearOrder T] :
    ∀ (l acc : List T), acc.Pairwise (· < ·) →
      (l.foldl (fun a x => sortedInsert x a) acc).Pairwise (· < ·) := by
  intro l
  induction l with
  | nil => intro acc h; simpa using h
  | cons x xs ih =>
    intro acc h
    simpa using ih (sortedInsert x acc) (sortedInsert_sorted x acc h)

theorem mem_foldl_sortedInsert {T : Type} [LinearOrder T] :
    ∀ (l acc : List T) (y : T),
      y ∈ l.foldl (fun a x => sortedInsert x a) acc ↔ y ∈ acc ∨ y ∈ l := by
  intro l
  induction l with
  | nil => intro acc y; simp
  | cons x xs ih =>
    intro acc y
    simp only [List.foldl_cons, ih (sortedInsert x acc) y, mem_sortedInsert, List.mem_cons]
    tauto

theorem iterable_to_sorted_set_sorted {T : Type} [LinearOrder T] (l : List T) :
    (iterable_to_sorted_set l).Pairwise (· < ·) :=
  foldl_sortedInsert_sorted l [] (List.Pairwise.nil)

theorem mem_iterable_to_sorted_set {T : Type} [LinearOrder T] {l : List T} {y : T} :
    y ∈ iterable_to_sorted_set l ↔ y ∈ l := by
  simpa using mem_foldl_sortedInsert l [] y

theorem sorted_lt_eq_of_mem_iff {T : Type} [LinearOrder T] :
    ∀ {l1 l2 : List T}, l1.Pairwise (· < ·) → l2.Pairwise (· < ·) →
      (∀ x, x ∈ l1 ↔ x ∈ l2) → l1 = l2 := by
  intro l1
  induction l1 with
  | nil =>
    intro l2 _ _ h
    cases l2 with
    | nil => rfl
    | cons b t => exact absurd ((h b).mpr (List.mem_cons_self b t)) (List.not_mem_nil b)
  | cons a t1 ih =>
    intro l2 h1 h2 h
    cases l2 with
    | nil => exact absurd ((h a).mp (List.mem_cons_self a t1)) (List.not_mem_nil a)
    | cons b t2 =>
      rw [List.pairwise_cons] at h1 h2
      have hab : a = b := by
        rcases List.mem_cons.mp ((h a).mp (List.mem_cons_self a t1)) with hh | hh
        · exact hh
        · rcases List.mem_cons.mp ((h b).mpr (List.mem_cons_self b t2)) with hh2 | hh2
          · exact hh2.symm
          · exact absurd (h1.1 b hh2) (not_lt.mpr (le_of_lt (h2.1 a hh)))
      subst hab
      have htail : ∀ x, x ∈ t1 ↔ x ∈ t2 := by
        intro x
        constructor
        · intro hx
          rcases List.mem_cons.mp ((h x).mp (List.mem_cons_of_mem a hx)) with hh | hh
          · exact absurd (hh ▸ h1.1 x hx) (lt_irrefl a)
          · exact hh
        · intro hx
          rcases List.mem_cons.mp ((h x).mpr (List.mem_cons_of_mem a hx)) with hh | hh
          · exact absurd (hh ▸ h2.1 x hx) (lt_irrefl a)
          · exact hh
      rw [ih h1.2 h2.2 htail]

theorem iterable_to_sorted_set_ext {T : Type} [LinearOrder T] {l1 l2 : List T}
    (h : ∀ x, x ∈ l1 ↔ x ∈ l2) : iterable_to_sorted_set l1 = iterable_to_sorted_set l2 :=
  sorted_lt_eq_of_mem_iff (iterable_to_sorted_set_sorted l1) (iterable_to_sorted_set_sorted l2)
    (fun x => by rw [mem_iterable_to_sorted_set, mem_iterable_to_sorted_set]; exact h x)

theorem iterable_to_sorted_set_idem {T : Type} [LinearOrder T] (l : List T) :
    iterable_to_sorted_set (iterable_to_sorted_set l) = iterable_to_sorted_set l :=
  sorted_lt_eq_of_mem_iff (iterable_to_sorted_set_sorted _) (iterable_to_sorted_set_sorted l)
    (fun x => by rw [mem_iterable_to_sorted_set])

/-! ## Properties of getElems -/

theorem getElems_cons_eq_some {T : Type} {es : List T} {i : ℕ} {is : List ℕ}
    {out : List T} (h : getElems es (i :: is) = some out) :
    ∃ v vs, es[i]? = some v ∧ getElems es is = some vs ∧ out = v :: vs := by
  cases hg : es[i]? with
  | none => simp [getElems, hg] at h
  | some v =>
    cases ht : getElems es is with
    | none => simp [getElems, hg, ht] at h
    | some vs =>
      simp only [getElems, hg, ht, Option.some.injEq] at h
      exact ⟨v, vs, rfl, rfl, h.symm⟩

theorem getElems_eq_some {T : Type} (es : List T) :
    ∀ {ps : List ℕ}, (∀ i ∈ ps, i < es.length) →
      ∃ out, getElems es ps = some out ∧ out.length = ps.length := by
  intro ps
  induction ps with
  | nil => intro _; exact ⟨[], rfl, rfl⟩
  | cons i is ih =>
    intro h
    obtain ⟨out, hout, hlen⟩ := ih (fun j hj => h j (List.mem_cons_of_mem i hj))
    have hi : i < es.length := h i (List.mem_cons_self i is)
    cases hv : es[i]? with
    | none =>
      rw [List.getElem?_eq_none_iff] at hv
      omega
    | some v =>
      refine ⟨v :: out, ?_, by simp [hlen]⟩
      simp [getElems, hv, hout]

theorem getElems_length {T : Type} {es : List T} :
    ∀ {ps : List ℕ} {out : List T}, getElems es ps = some out → out.length = ps.length := by
  intro ps
  induction ps with
  | nil =>
    intro out h
    simp only [getElems, Option.some.injEq] at h
    simp [← h]
  | cons i is ih =>
    intro out h
    obtain ⟨v, vs, _, hvs, rfl⟩ := getElems_cons_eq_some h
    simp [ih hvs]

theorem pairwise_lt_getElem? {T : Type} [LinearOrder T] {es : List T}
    (hs : es.Pairwise (· < ·)) {i j : ℕ} {a b : T} (hij : i < j)
    (ha : es[i]? = some a) (hb : es[j]? = some b) : a < b := by
  rw [List.getElem?_eq_some] at ha hb
  obtain ⟨hi, ha⟩ := ha
  obtain ⟨hj, hb⟩ := hb
  have := (List.pairwise_iff_get.mp hs) ⟨i, hi⟩ ⟨j, hj⟩ hij
  simp only [List.get_eq_getElem] at this
  rw [ha, hb] at this
  exact this

theorem getElems_lex {T : Type} [LinearOrder T] {es : List T}
    (hs : es.Pairwise (· < ·)) {x y : List ℕ} (hlex : List.Lex (· < ·) x y) :
    ∀ {x2 y2 : List T}, getElems es x = some x2 → getElems es y = some y2 →
      List.Lex (· < ·) x2 y2 := by
  induction hlex with
  | nil =>
    intro x2 y2 hx hy
    simp only [getElems, Option.some.injEq] at hx
    obtain ⟨v, vs, _, _, rfl⟩ := getElems_cons_eq_some hy
    rw [← hx]
    exact List.Lex.nil
  | @cons a l1 l2 htail ih =>
    intro x2 y2 hx hy
    obtain ⟨v, vs, hv, hvs, rfl⟩ := getElems_cons_eq_some hx
    obtain ⟨w, ws, hw, hws, rfl⟩ := getElems_cons_eq_some hy
    rw [hv] at hw
    cases hw
    exact List.Lex.cons (ih hvs hws)
  | @rel a l1 b l2 hr =>
    intro x2 y2 hx hy
    obtain ⟨v, vs, hv, hvs, rfl⟩ := getElems_cons_eq_some hx
    obtain ⟨w, ws, hw, hws, rfl⟩ := getElems_cons_eq_some hy
    exact List.Lex.rel (pairwise_lt_getElem? hs hr hv hw)

/-! ## Basic properties of the position-advance functions -/

theorem mtnpGo_zero : ∀ p : List ℕ, mtnpGo 0 p = none := by
  intro p
  induction p with
  | nil => rfl
  | cons x rest ih => simp [mtnpGo, ih]

theorem mtnpGo_length {N : ℕ} : ∀ {p q : List ℕ}, mtnpGo N p = some q → q.length = p.length := by
  intro p
  induction p with
  | nil => intro q h; simp [mtnpGo] at h
  | cons x rest ih =>
    intro q h
    simp only [mtnpGo] at h
    cases h1 : mtnpGo N rest with
    | some r2 =>
      rw [h1] at h
      simp only [Option.some.injEq] at h
      simp [← h, ih h1]
    | none =>
      rw [h1] at h
      by_cases h2 : N - 1 ≤ x
      · simp [h2] at h
      · simp only [if_neg h2] at h
        cases rest with
        | nil =>
          simp only [Option.some.injEq] at h
          simp [← h]
        | cons q0 t =>
          by_cases h3 : x < q0 - 1
          · simp only [if_pos h3, Option.some.injEq] at h
            simp [← h]
          · simp [h3] at h

theorem cwrGo_zero : ∀ p : List ℕ, cwrGo 0 p = none := by
  intro p
  induction p with
  | nil => rfl
  | cons x rest ih => simp [cwrGo, ih]

theorem cwrGo_length {N : ℕ} : ∀ {p q : List ℕ}, cwrGo N p = some q → q.length = p.length := by
  intro p
  induction p with
  | nil => intro q h; simp [cwrGo] at h
  | cons x rest ih =>
    intro q h
    simp only [cwrGo] at h
    cases h1 : cwrGo N rest with
    | some r2 =>
      rw [h1] at h
      simp only [Option.some.injEq] at h
      simp [← h, ih h1]
    | none =>
      rw [h1] at h
      by_cases h2 : N - 1 ≤ x
      · simp [h2] at h
      · simp only [if_neg h2, Option.some.injEq] at h
        simp [← h]

theorem mtnpGo_posAdv {b : Bool} {N : ℕ} {p q : List ℕ} (h : mtnpGo N p = some q) :
    posAdv b N p = some q := by
  have hN : N ≠ 0 := by
    intro h0
    subst h0
    rw [mtnpGo_zero] at h
    exact Option.noConfusion h
  simp [posAdv, if_neg hN, h]

theorem posAdv_false_none {N : ℕ} {p : List ℕ} (h : mtnpGo N p = none) :
    posAdv false N p = none := by
  by_cases hN : N = 0 <;> simp [posAdv, hN, h]

theorem cwrGo_posAdvW {b : Bool} {N : ℕ} {p q : List ℕ} (h : cwrGo N p = some q) :
    posAdvW b N p = some q := by
  have hN : N ≠ 0 := by
    intro h0
    subst h0
    rw [cwrGo_zero] at h
    exact Option.noConfusion h
  simp [posAdvW, if_neg hN, h]

theorem posAdvW_false_none {N : ℕ} {p : List ℕ} (h : cwrGo N p = none) :
    posAdvW false N p = none := by
  by_cases hN : N = 0 <;> simp [posAdvW, hN, h]

/-! ## Step lemmas for the combination engines -/

theorem Combinations.next_done {T : Type} {c : Combinations T} (h : c.done = true) :
    c.next = (none, c) := by
  simp [Combinations.next, h]

theorem Combinations.outputs_done {T : Type} {c : Combinations T} (h : c.done = true) :
    ∀ fuel, c.outputs fuel = [] := by
  intro fuel
  cases fuel with
  | zero => rfl
  | succ n => simp [Combinations.outputs, Combinations.next_done h]

theorem Combinations.next_not_done {T : Type} {c : Combinations T} (h : c.done = false) :
    c.next = (c.get_current_combination,
      match posAdv c.all_sizes c.elements.length c.positions with
      | some ps => { c with positions := ps }
      | none => { c with done := true }) := by
  simp only [Combinations.next, h, Bool.false_eq_true, if_false, posAdv,
    Combinations.move_to_next_position, Combinations.move_to_next_set_size]
  cases h1 : (if c.elements.length = 0 then none else mtnpGo c.elements.length c.positions) with
  | some p => rfl
  | none =>
    cases hA : c.all_sizes with
    | false => rfl
    | true =>
      cases h2 : (if c.elements.length ≤ c.positions.length then (none : Option (List ℕ))
          else some (List.range (c.positions.length + 1))) with
      | some p => rfl
      | none => rfl

theorem CombinationsWithReplacement.next_doneW {T : Type} {c : CombinationsWithReplacement T}
    (h : c.done = true) : c.next = (none, c) := by
  simp [CombinationsWithReplacement.next, h]

theorem CombinationsWithReplacement.outputs_doneW {T : Type} {c : CombinationsWithReplacement T}
    (h : c.done = true) : ∀ fuel, c.outputs fuel = [] := by
  intro fuel
  cases fuel with
  | zero => rfl
  | succ n => simp [CombinationsWithReplacement.outputs, CombinationsWithReplacement.next_doneW h]

theorem CombinationsWithReplacement.next_not_doneW {T : Type} {c : CombinationsWithReplacement T}
    (h : c.done = false) :
    c.next = (c.get_current_combination,
      match posAdvW c.all_sizes c.elements.length c.positions with
      | some ps => { c with positions := ps }
      | none => { c with done := true }) := by
  simp only [CombinationsWithReplacement.next, h, Bool.false_eq_true, if_false, posAdvW,
    CombinationsWithReplacement.move_to_next_position,
    CombinationsWithReplacement.move_to_next_set_size]
  cases h1 : (if c.elements.length = 0 then none else cwrGo c.elements.length c.positions) with
  | some p => rfl
  | none =>
    cases hA : c.all_sizes with
    | false => rfl
    | true =>
      cases h2 : (if c.elements.length ≤ c.positions.length then (none : Option (List ℕ))
          else some (List.replicate (c.positions.length + 1) 0)) with
      | some p => rfl
      | none => rfl

/-! ## Run lemmas: the outputs along a chain of position advances -/

theorem Combinations.outputs_run {T : Type} :
    ∀ (P : List (List ℕ)) (c : Combinations T), c.done = false →
      P.head? = some c.positions →
      List.Chain' (fun p q => posAdv c.all_sizes c.elements.length p = some q) P →
      (∀ p, P.getLast? = some p → posAdv c.all_sizes c.elements.length p = none) →
      (∀ p ∈ P, p.length ≤ c.elements.length ∧ (getElems c.elements p).isSome) →
      ∀ fuel, c.outputs fuel = (P.take fuel).map (fun p => (getElems c.elements p).getD []) := by
  intro P
  induction P with
  | nil => intro c _ hh _ _ _ _; simp at hh
  | cons p P ih =>
    intro c hd hh hchain hlast hvalid fuel
    have hpos : c.positions = p := by
      simp only [List.head?_cons, Option.some.injEq] at hh
      exact hh.symm
    cases fuel with
    | zero => rfl
    | succ n =>
      obtain ⟨hlen, hsome⟩ := hvalid p (List.mem_cons_self p P)
      obtain ⟨out, hout⟩ := Option.isSome_iff_exists.mp hsome
      have hcombo : c.get_current_combination = some out := by
        simp [Combinations.get_current_combination, hd, hpos, Nat.not_lt.mpr hlen, hout]
      cases P with
      | nil =>
        have hl := hlast p (by simp)
        have hdone : ∀ m, (Combinations.mk c.elements p c.all_sizes true).outputs m = [] :=
          Combinations.outputs_done rfl
        simp only [Combinations.outputs, Combinations.next_not_done hd, hpos, hl, hcombo]
        simp [hdone, hout]
      | cons q Q =>
        have hrel : posAdv c.all_sizes c.elements.length p = some q :=
          (List.chain'_cons.mp hchain).1
        have hc2 := ih { c with positions := q } hd (by simp)
          (List.chain'_cons.mp hchain).2
          (fun r hr => hlast r (by simp only [List.getLast?_cons_cons] at hr ⊢; exact hr))
          (fun r hr => hvalid r (List.mem_cons_of_mem p hr)) n
        simp only [Combinations.outputs, Combinations.next_not_done hd, hpos, hrel, hcombo]
        simp only [List.take_succ_cons, List.map_cons, hout, Option.getD_some]
        exact congrArg (out :: ·) hc2

theorem CombinationsWithReplacement.outputs_runW {T : Type} :
    ∀ (P : List (List ℕ)) (c : CombinationsWithReplacement T), c.done = false →
      P.head? = some c.positions →
      List.Chain' (fun p q => posAdvW c.all_sizes c.elements.length p = some q) P →
      (∀ p, P.getLast? = some p → posAdvW c.all_sizes c.elements.length p = none) →
      (∀ p ∈ P, p.length ≤ c.elements.length ∧ (getElems c.elements p).isSome) →
      ∀ fuel, c.outputs fuel = (P.take fuel).map (fun p => (getElems c.elements p).getD []) := by
  intro P
  induction P with
  | nil => intro c _ hh _ _ _ _; simp at hh
  | cons p P ih =>
    intro c hd hh hchain hlast hvalid fuel
    have hpos : c.positions = p := by
      simp only [List.head?_cons, Option.some.injEq] at hh
      exact hh.symm
    cases fuel with
    | zero => rfl
    | succ n =>
      obtain ⟨hlen, hsome⟩ := hvalid p (List.mem_cons_self p P)
      obtain ⟨out, hout⟩ := Option.isSome_iff_exists.mp hsome
      have hcombo : c.get_current_combination = some out := by
        simp [CombinationsWithReplacement.get_current_combination, hd, hpos,
          Nat.not_lt.mpr hlen, hout]
      cases P with
      | nil =>
        have hl := hlast p (by simp)
        have hdone : ∀ m, (CombinationsWithReplacement.mk c.elements p c.all_sizes
            true).outputs m = [] :=
          CombinationsWithReplacement.outputs_doneW rfl
        simp only [CombinationsWithReplacement.outputs,
          CombinationsWithReplacement.next_not_doneW hd, hpos, hl, hcombo]
        simp [hdone, hout]
      | cons q Q =>
        have hrel : posAdvW c.all_sizes c.elements.length p = some q :=
          (List.chain'_cons.mp hchain).1
        have hc2 := ih { c with positions := q } hd (by simp)
          (List.chain'_cons.mp hchain).2
          (fun r hr => hlast r (by simp only [List.getLast?_cons_cons] at hr ⊢; exact hr))
          (fun r hr => hvalid r (List.mem_cons_of_mem p hr)) n
        simp only [CombinationsWithReplacement.outputs,
          CombinationsWithReplacement.next_not_doneW hd, hpos, hrel, hcombo]
        simp only [List.take_succ_cons, List.map_cons, hout, Option.getD_some]
        exact congrArg (out :: ·) hc2

/-! ## The canonical combination list: basic properties -/

theorem combs_zero (l : List ℕ) : combs l 0 = [[]] := by
  cases l <;> rfl

theorem combs_nil_succ (k : ℕ) : combs [] (k + 1) = [] := rfl

theorem combs_cons_succ (x : ℕ) (xs : List ℕ) (k : ℕ) :
    combs (x :: xs) (k + 1) = (combs xs k).map (fun p => x :: p) ++ combs xs (k + 1) := rfl

theorem mtnpGo_cons_of_tail_some {N a : ℕ} {rest r2 : List ℕ} (h : mtnpGo N rest = some r2) :
    mtnpGo N (a :: rest) = some (a :: r2) := by
  simp only [mtnpGo, h]

theorem mtnpGo_cons_of_tail_none {N a : ℕ} {rest : List ℕ} (h : mtnpGo N rest = none) :
    mtnpGo N (a :: rest) =
      if N - 1 ≤ a then none
      else
        match rest with
        | [] => some [a + 1]
        | q :: _ => if a < q - 1 then some ((a + 1) :: List.range' (a + 2) rest.length)
          else none := by
  simp only [mtnpGo, h]

theorem combs_length : ∀ (l : List ℕ) (k : ℕ), (combs l k).length = Nat.choose l.length k := by
  intro l
  induction l with
  | nil =>
    intro k
    cases k with
    | zero => simp [combs_zero]
    | succ k => simp [combs_nil_succ]
  | cons x xs ih =>
    intro k
    cases k with
    | zero => simp [combs_zero]
    | succ k =>
      simp [combs_cons_succ, ih, Nat.choose_succ_succ']

theorem combs_ne_nil {l : List ℕ} {k : ℕ} (h : k ≤ l.length) : combs l k ≠ [] := by
  apply List.ne_nil_of_length_pos
  rw [combs_length]
  exact Nat.choose_pos h

theorem combs_mem : ∀ (l : List ℕ) (k : ℕ) (p : List ℕ),
    p ∈ combs l k → p.length = k ∧ ∀ i ∈ p, i ∈ l := by
  intro l
  induction l with
  | nil =>
    intro k p hp
    cases k with
    | zero =>
      simp only [combs_zero, List.mem_singleton] at hp
      subst hp
      exact ⟨rfl, by simp⟩
    | succ k => simp [combs_nil_succ] at hp
  | cons x xs ih =>
    intro k p hp
    cases k with
    | zero =>
      simp only [combs_zero, List.mem_singleton] at hp
      subst hp
      exact ⟨rfl, by simp⟩
    | succ k =>
      rw [combs_cons_succ] at hp
      rcases List.mem_append.mp hp with hp | hp
      · obtain ⟨q, hq, rfl⟩ := List.mem_map.mp hp
        obtain ⟨hlen, hmem⟩ := ih k q hq
        refine ⟨by simp [hlen], ?_⟩
        intro i hi
        rcases List.mem_cons.mp hi with hi | hi
        · simp [hi]
        · exact List.mem_cons_of_mem x (hmem i hi)
      · obtain ⟨hlen, hmem⟩ := ih (k + 1) p hp
        exact ⟨hlen, fun i hi => List.mem_cons_of_mem x (hmem i hi)⟩

theorem combs_head : ∀ (k m a : ℕ), k ≤ m →
    (combs (List.range' a m) k).head? = some (List.range' a k) := by
  intro k
  induction k with
  | zero => intro m a _; simp [combs_zero]
  | succ k ih =>
    intro m a hkm
    cases m with
    | zero => omega
    | succ m =>
      rw [List.range'_succ, combs_cons_succ]
      have hne : (combs (List.range' (a + 1) m) k).map (fun p => a :: p) ≠ [] := by
        simp only [ne_eq, List.map_eq_nil_iff]
        exact combs_ne_nil (by rw [List.length_range']; omega)
      rw [List.head?_append_of_ne_nil _ hne, List.head?_map, ih m (a + 1) (by omega)]
      simp [List.range'_succ]

theorem combs_getLast : ∀ (m a k : ℕ), 1 ≤ k → k ≤ m →
    (combs (List.range' a m) k).getLast? = some (List.range' (a + m - k) k) := by
  intro m
  induction m with
  | zero => intro a k hk hkm; omega
  | succ m ih =>
    intro a k hk hkm
    cases k with
    | zero => omega
    | succ k =>
      rw [List.range'_succ, combs_cons_succ]
      by_cases hY : k + 1 ≤ m
      · have hYne : combs (List.range' (a + 1) m) (k + 1) ≠ [] :=
          combs_ne_nil (by rw [List.length_range']; exact hY)
        rw [List.getLast?_append_of_ne_nil _ hYne, ih (a + 1) (k + 1) (by omega) hY]
        have harith : a + 1 + m - (k + 1) = a + (m + 1) - (k + 1) := by omega
        rw [harith]
      · have hYnil : combs (List.range' (a + 1) m) (k + 1) = [] := by
          apply List.eq_nil_of_length_eq_zero
          rw [combs_length, List.length_range']
          exact Nat.choose_eq_zero_of_lt (by omega)
        rw [hYnil, List.append_nil, List.getLast?_map]
        cases k with
        | zero =>
          have hm : m = 0 := by omega
          subst hm
          rw [combs_zero]
          have harith : a + (0 + 1) - (0 + 1) = a := by omega
          rw [harith]
          rw [show List.range' a (0 + 1) = a :: List.range' (a + 1) 0 from List.range'_succ a 0 1]
          rfl
        | succ k2 =>
          rw [ih (a + 1) (k2 + 1) (by omega) (by omega)]
          have h1 : a + 1 + m - (k2 + 1) = a + 1 := by omega
          have h2 : a + (m + 1) - (k2 + 1 + 1) = a := by omega
          rw [h1, h2, Option.map_some']
          rw [show List.range' a (k2 + 1 + 1) = a :: List.range' (a + 1) (k2 + 1) from
            List.range'_succ a (k2 + 1) 1]

theorem mtnpGo_range'_none : ∀ (k a N : ℕ), a + k = N → mtnpGo N (List.range' a k) = none := by
  intro k
  induction k with
  | zero => intro a N _; rfl
  | succ k ih =>
    intro a N h
    rw [List.range'_succ]
    have htail : mtnpGo N (List.range' (a + 1) k) = none := ih (a + 1) N (by omega)
    rw [mtnpGo_cons_of_tail_none htail]
    cases k with
    | zero => rw [if_pos (show N - 1 ≤ a by omega)]
    | succ k2 =>
      rw [if_neg (show ¬ N - 1 ≤ a by omega)]
      rw [show List.range' (a + 1) (k2 + 1) = (a + 1) :: List.range' (a + 2) k2 from
        List.range'_succ (a + 1) k2 1]
      dsimp only
      rw [if_neg (show ¬ a < a + 1 - 1 by omega)]

theorem combs_chain : ∀ (m a k N : ℕ), a + m = N →
    List.Chain' (fun p q => mtnpGo N p = some q) (combs (List.range' a m) k) := by
  intro m
  induction m with
  | zero =>
    intro a k N _
    cases k with
    | zero => rw [combs_zero]; exact List.chain'_singleton _
    | succ k => simp [List.range'_zero, combs_nil_succ]
  | succ m ih =>
    intro a k N h
    cases k with
    | zero => rw [combs_zero]; exact List.chain'_singleton _
    | succ k =>
      rw [List.range'_succ, combs_cons_succ]
      apply List.Chain'.append
      · rw [List.chain'_map]
        apply List.Chain'.imp ?_ (ih (a + 1) k N (by omega))
        intro p q hpq
        exact mtnpGo_cons_of_tail_some hpq
      · exact ih (a + 1) (k + 1) N (by omega)
      · intro x hx y hy
        have hYne : combs (List.range' (a + 1) m) (k + 1) ≠ [] := by
          intro hnil
          rw [hnil] at hy
          simp at hy
        have hkm : k + 1 ≤ m := by
          by_contra hlt
          have hz := combs_length (List.range' (a + 1) m) (k + 1)
          rw [List.length_range', Nat.choose_eq_zero_of_lt (by omega)] at hz
          exact hYne (List.eq_nil_of_length_eq_zero hz)
        rw [combs_head (k + 1) m (a + 1) hkm] at hy
        have hy2 : List.range' (a + 1) (k + 1) = y := by simpa using hy
        rw [List.getLast?_map] at hx
        cases k with
        | zero =>
          rw [combs_zero] at hx
          have hx2 : [a] = x := by simpa using hx
          subst hx2
          subst hy2
          rw [mtnpGo_cons_of_tail_none (show mtnpGo N ([] : List ℕ) = none from rfl)]
          rw [if_neg (show ¬ N - 1 ≤ a by omega)]
          dsimp only
          rw [show List.range' (a + 1) (0 + 1) = (a + 1) :: List.range' (a + 2) 0 from
            List.range'_succ (a + 1) 0 1]
          rfl
        | succ k2 =>
          rw [combs_getLast m (a + 1) (k2 + 1) (by omega) (by omega)] at hx
          have hx2 : a :: List.range' (a + 1 + m - (k2 + 1)) (k2 + 1) = x := by simpa using hx
          subst hx2
          subst hy2
          have hA : a + 1 + m - (k2 + 1) = N - (k2 + 1) := by omega
          rw [hA]
          have htail : mtnpGo N (List.range' (N - (k2 + 1)) (k2 + 1)) = none :=
            mtnpGo_range'_none (k2 + 1) (N - (k2 + 1)) N (by omega)
          rw [mtnpGo_cons_of_tail_none htail]
          rw [if_neg (show ¬ N - 1 ≤ a by omega)]
          rw [show List.range' (N - (k2 + 1)) (k2 + 1) =
            (N - (k2 + 1)) :: List.range' (N - (k2 + 1) + 1) k2 from
            List.range'_succ (N - (k2 + 1)) k2 1]
          dsimp only
          rw [if_pos (show a < N - (k2 + 1) - 1 by omega)]
          simp only [List.length_cons, List.length_range', Option.some.injEq]
          rw [show List.range' (a + 1) (k2 + 1 + 1) = (a + 1) :: List.range' (a + 2) (k2 + 1) from
            List.range'_succ (a + 1) (k2 + 1) 1]

theorem combs_chain_posAdv (N k : ℕ) :
    List.Chain' (fun p q => posAdv false N p = some q) (combs (List.range N) k) := by
  rw [List.range_eq_range']
  exact List.Chain'.imp (fun p q h => mtnpGo_posAdv h) (combs_chain N 0 k N (by omega))

theorem combs_last_posAdv {N k : ℕ} (hk : k ≤ N) :
    ∀ p, (combs (List.range N) k).getLast? = some p → posAdv false N p = none := by
  intro p hp
  cases k with
  | zero =>
    rw [combs_zero] at hp
    have hp2 : [] = p := by simpa using hp
    subst hp2
    exact posAdv_false_none rfl
  | succ k =>
    rw [List.range_eq_range', combs_getLast N 0 (k + 1) (by omega) hk] at hp
    have hp2 : List.range' (0 + N - (k + 1)) (k + 1) = p := by simpa using hp
    subst hp2
    exact posAdv_false_none (mtnpGo_range'_none (k + 1) (0 + N - (k + 1)) N (by omega))

theorem combs_valid {T : Type} (es : List T) (k : ℕ) :
    ∀ p ∈ combs (List.range es.length) k,
      p.length ≤ es.length ∧ (getElems es p).isSome := by
  intro p hp
  obtain ⟨hlen, hmem⟩ := combs_mem (List.range es.length) k p hp
  constructor
  · have := combs_length (List.range es.length) k
    by_contra hlt
    have h0 : (combs (List.range es.length) k).length = 0 := by
      rw [combs_length, List.length_range]
      exact Nat.choose_eq_zero_of_lt (by omega)
    rw [List.length_eq_zero] at h0
    rw [h0] at hp
    exact absurd hp (List.not_mem_nil p)
  · obtain ⟨out, hout, _⟩ :=
      getElems_eq_some es (fun i hi => List.mem_range.mp (hmem i hi))
    rw [hout]
    rfl

/-- Claim C6: for every domain of size N and every requested size k, the
fixed-size combinations generator yields exactly C(N, k) results when
k ≤ N and zero results when k > N; a domain of size 0 with requested size 0
yields exactly one result, the empty combination. -/
theorem claim_c6 {T : Type} [LinearOrder T] (l : List T) (k : ℕ) :
    (k ≤ (iterable_to_sorted_set l).length →
      ∀ fuel, Nat.choose (iterable_to_sorted_set l).length k ≤ fuel →
        ((Combinations.of_size l k).outputs fuel).length =
          Nat.choose (iterable_to_sorted_set l).length k) ∧
    ((iterable_to_sorted_set l).length < k →
      ∀ fuel, (Combinations.of_size l k).outputs fuel = []) ∧
    (l = [] → k = 0 → ∀ fuel, 1 ≤ fuel → (Combinations.of_size l k).outputs fuel = [[]]) := by
  refine ⟨?_, ?_, ?_⟩
  · intro hk fuel hfuel
    have hhead : (combs (List.range (iterable_to_sorted_set l).length) k).head? =
        some (List.range k) := by
      rw [List.range_eq_range' (iterable_to_sorted_set l).length,
        combs_head k (iterable_to_sorted_set l).length 0 hk, List.range_eq_range' k]
    have hrun := Combinations.outputs_run
      (combs (List.range (iterable_to_sorted_set l).length) k)
      (Combinations.of_size l k) rfl hhead
      (combs_chain_posAdv (iterable_to_sorted_set l).length k)
      (combs_last_posAdv hk)
      (combs_valid (iterable_to_sorted_set l) k) fuel
    rw [hrun, List.take_of_length_le (by rw [combs_length, List.length_range]; exact hfuel),
      List.length_map, combs_length, List.length_range]
  · intro hk fuel
    cases fuel with
    | zero => rfl
    | succ n =>
      have hcombo : (Combinations.of_size l k).get_current_combination = none := by
        simp [Combinations.get_current_combination, Combinations.of_size, hk]
      have hnd := Combinations.next_not_done (c := Combinations.of_size l k) rfl
      simp only [Combinations.outputs, hnd, hcombo]
  · intro hl hk fuel hfuel
    subst hl
    subst hk
    cases fuel with
    | zero => omega
    | succ n =>
      have hstep : Combinations.next (Combinations.of_size ([] : List T) 0) =
          (some [], Combinations.mk [] [] false true) := rfl
      simp only [Combinations.outputs, hstep]
      rw [Combinations.outputs_done rfl]

theorem claim_c6_witness :
    2 ≤ (iterable_to_sorted_set ([0, 1, 2] : List ℕ)).length ∧
      Nat.choose (iterable_to_sorted_set ([0, 1, 2] : List ℕ)).length 2 ≤ 4 ∧
      ((Combinations.of_size ([0, 1, 2] : List ℕ) 2).outputs 4).length =
        Nat.choose (iterable_to_sorted_set ([0, 1, 2] : List ℕ)).length 2 :=
  ⟨by decide, by decide, (claim_c6 [0, 1, 2] 2).1 (by decide) 4 (by decide)⟩

/-! ## The canonical replacement-combination list: basic properties -/

theorem cwr_zero (l : List ℕ) : cwr l 0 = [[]] := by
  cases l <;> rfl

theorem cwr_nil_succ (k : ℕ) : cwr [] (k + 1) = [] := rfl

theorem cwr_cons_succ (x : ℕ) (xs : List ℕ) (k : ℕ) :
    cwr (x :: xs) (k + 1) = (cwr (x :: xs) k).map (fun p => x :: p) ++ cwr xs (k + 1) := rfl

theorem cwrGo_cons_of_tail_some {N a : ℕ} {rest r2 : List ℕ} (h : cwrGo N rest = some r2) :
    cwrGo N (a :: rest) = some (a :: r2) := by
  simp only [cwrGo, h]

theorem cwrGo_cons_of_tail_none {N a : ℕ} {rest : List ℕ} (h : cwrGo N rest = none) :
    cwrGo N (a :: rest) =
      if N - 1 ≤ a then none
      else some ((a + 1) :: List.replicate rest.length (a + 1)) := by
  simp only [cwrGo, h]

theorem cwr_length : ∀ (l : List ℕ) (k : ℕ),
    (cwr l k).length = Nat.choose (l.length + k - 1) k := by
  intro l
  induction l with
  | nil =>
    intro k
    cases k with
    | zero => simp [cwr_zero]
    | succ k =>
      simp [cwr_nil_succ, Nat.choose_eq_zero_of_lt (Nat.lt_succ_self k)]
  | cons x xs ih =>
    intro k
    induction k with
    | zero => simp [cwr_zero]
    | succ k ihk =>
      rw [cwr_cons_succ, List.length_append, List.length_map, ihk, ih (k + 1)]
      have h1 : (x :: xs).length + k - 1 = xs.length + k := by
        simp only [List.length_cons]
        omega
      have h2 : xs.length + (k + 1) - 1 = xs.length + k := by omega
      have h3 : (x :: xs).length + (k + 1) - 1 = xs.length + k + 1 := by
        simp only [List.length_cons]
        omega
      rw [h1, h2, h3, Nat.choose_succ_succ']

theorem cwr_ne_nil {l : List ℕ} {k : ℕ} (h : 1 ≤ l.length ∨ k = 0) : cwr l k ≠ [] := by
  apply List.ne_nil_of_length_pos
  rw [cwr_length]
  apply Nat.choose_pos
  omega

theorem cwr_mem : ∀ (l : List ℕ) (k : ℕ) (p : List ℕ),
    p ∈ cwr l k → p.length = k ∧ ∀ i ∈ p, i ∈ l := by
  intro l
  induction l with
  | nil =>
    intro k p hp
    cases k with
    | zero =>
      simp only [cwr_zero, List.mem_singleton] at hp
      subst hp
      exact ⟨rfl, by simp⟩
    | succ k => simp [cwr_nil_succ] at hp
  | cons x xs ih =>
    intro k
    induction k with
    | zero =>
      intro p hp
      simp only [cwr_zero, List.mem_singleton] at hp
      subst hp
      exact ⟨rfl, by simp⟩
    | succ k ihk =>
      intro p hp
      rw [cwr_cons_succ] at hp
      rcases List.mem_append.mp hp with hp | hp
      · obtain ⟨q, hq, rfl⟩ := List.mem_map.mp hp
        obtain ⟨hlen, hmem⟩ := ihk q hq
        refine ⟨by simp [hlen], ?_⟩
        intro i hi
        rcases List.mem_cons.mp hi with hi | hi
        · simp [hi]
        · exact hmem i hi
      · obtain ⟨hlen, hmem⟩ := ih (k + 1) p hp
        exact ⟨hlen, fun i hi => List.mem_cons_of_mem x (hmem i hi)⟩

theorem cwr_head : ∀ (k m a : ℕ), 1 ≤ m →
    (cwr (List.range' a m) k).head? = some (List.replicate k a) := by
  intro k
  induction k with
  | zero => intro m a _; simp [cwr_zero]
  | succ k ih =>
    intro m a hm
    cases m with
    | zero => omega
    | succ m =>
      rw [List.range'_succ, cwr_cons_succ]
      have hne : (cwr (a :: List.range' (a + 1) m) k).map (fun p => a :: p) ≠ [] := by
        simp only [ne_eq, List.map_eq_nil_iff]
        exact cwr_ne_nil (Or.inl (by simp))
      rw [List.head?_append_of_ne_nil _ hne, List.head?_map, ← List.range'_succ,
        ih (m + 1) a (by omega)]
      rfl

theorem cwr_getLast : ∀ (m a k : ℕ), 1 ≤ m →
    (cwr (List.range' a m) k).getLast? = some (List.replicate k (a + m - 1)) := by
  intro m
  induction m with
  | zero => intro a k hm; omega
  | succ m ih =>
    intro a k hm
    induction k with
    | zero => simp [cwr_zero]
    | succ k ihk =>
      rw [List.range'_succ, cwr_cons_succ]
      by_cases hm2 : 1 ≤ m
      · have hYne : cwr (List.range' (a + 1) m) (k + 1) ≠ [] :=
          cwr_ne_nil (Or.inl (by rw [List.length_range']; omega))
        rw [List.getLast?_append_of_ne_nil _ hYne, ih (a + 1) (k + 1) hm2]
        have harith : a + 1 + m - 1 = a + (m + 1) - 1 := by omega
        rw [harith]
      · have hm0 : m = 0 := by omega
        subst hm0
        have hYnil : cwr (List.range' (a + 1) 0) (k + 1) = [] := rfl
        rw [hYnil, List.append_nil, List.getLast?_map, ← List.range'_succ, ihk]
        simp [List.replicate_succ]

theorem cwrGo_replicate_none : ∀ (k N v : ℕ), N - 1 ≤ v →
    cwrGo N (List.replicate k v) = none := by
  intro k
  induction k with
  | zero => intro N v _; rfl
  | succ k ih =>
    intro N v h
    rw [List.replicate_succ, cwrGo_cons_of_tail_none (ih N v h), if_pos h]

theorem cwr_chain : ∀ (m a k N : ℕ), a + m = N →
    List.Chain' (fun p q => cwrGo N p = some q) (cwr (List.range' a m) k) := by
  intro m
  induction m with
  | zero =>
    intro a k N _
    cases k with
    | zero => rw [cwr_zero]; exact List.chain'_singleton _
    | succ k => simp [List.range'_zero, cwr_nil_succ]
  | succ m ih =>
    intro a k N h
    induction k with
    | zero => rw [cwr_zero]; exact List.chain'_singleton _
    | succ k ihk =>
      rw [List.range'_succ, cwr_cons_succ]
      apply List.Chain'.append
      · rw [List.chain'_map]
        have hinner := ihk
        rw [show List.range' a (m + 1) = a :: List.range' (a + 1) m from
          List.range'_succ a m 1] at hinner
        exact List.Chain'.imp (fun p q hpq => cwrGo_cons_of_tail_some hpq) hinner
      · exact ih (a + 1) (k + 1) N (by omega)
      · intro x hx y hy
        have hYne : cwr (List.range' (a + 1) m) (k + 1) ≠ [] := by
          intro hnil
          rw [hnil] at hy
          simp at hy
        have hm2 : 1 ≤ m := by
          by_contra hz
          have hm0 : m = 0 := by omega
          subst hm0
          exact hYne rfl
        rw [cwr_head (k + 1) m (a + 1) hm2] at hy
        have hy2 : List.replicate (k + 1) (a + 1) = y := by simpa using hy
        rw [List.getLast?_map, ← List.range'_succ, cwr_getLast (m + 1) a k (by omega)] at hx
        have hx2 : a :: List.replicate k (a + (m + 1) - 1) = x := by simpa using hx
        subst hx2
        subst hy2
        have hv : a + (m + 1) - 1 = N - 1 := by omega
        rw [hv]
        rw [cwrGo_cons_of_tail_none (cwrGo_replicate_none k N (N - 1) (le_refl _))]
        rw [if_neg (show ¬ N - 1 ≤ a by omega)]
        simp [List.length_replicate, List.replicate_succ]

theorem cwr_chain_posAdvW (N k : ℕ) :
    List.Chain' (fun p q => posAdvW false N p = some q) (cwr (List.range N) k) := by
  rw [List.range_eq_range']
  exact List.Chain'.imp (fun p q h => cwrGo_posAdvW h) (cwr_chain N 0 k N (by omega))

theorem cwr_last_posAdvW {N k : ℕ} (hk : k ≤ N) :
    ∀ p, (cwr (List.range N) k).getLast? = some p → posAdvW false N p = none := by
  intro p hp
  cases N with
  | zero =>
    have hk0 : k = 0 := by omega
    subst hk0
    rw [cwr_zero] at hp
    have hp2 : [] = p := by simpa using hp
    subst hp2
    exact posAdvW_false_none rfl
  | succ N2 =>
    rw [List.range_eq_range', cwr_getLast (N2 + 1) 0 k (by omega)] at hp
    have hp2 : List.replicate k (0 + (N2 + 1) - 1) = p := by simpa using hp
    subst hp2
    apply posAdvW_false_none
    apply cwrGo_replicate_none
    omega

theorem cwr_valid {T : Type} (es : List T) (k : ℕ) (hk : k ≤ es.length) :
    ∀ p ∈ cwr (List.range es.length) k,
      p.length ≤ es.length ∧ (getElems es p).isSome := by
  intro p hp
  obtain ⟨hlen, hmem⟩ := cwr_mem (List.range es.length) k p hp
  refine ⟨by omega, ?_⟩
  obtain ⟨out, hout, _⟩ := getElems_eq_some es (fun i hi => List.mem_range.mp (hmem i hi))
  rw [hout]
  rfl

/-- Counterexample to claim C5 as stated: over the one-element domain `[0]`
with requested size 2, the generator yields zero results even though
`C(N + k - 1, k) = C(2, 2) = 1`. -/
theorem claim_c5_counterexample :
    (CombinationsWithReplacement.of_size ([0] : List ℕ) 2).outputs 3 = [] ∧
      Nat.choose (1 + 2 - 1) 2 = 1 := by
  constructor
  · rfl
  · rfl

/-- Claim C5, amended: the fixed-size combinations-with-replacement generator
yields exactly C(N + k - 1, k) results when k ≤ N, and zero results when
k > N (the source's own doc-test asserts the `k > N` behavior). -/
theorem claim_c5_amended {T : Type} [LinearOrder T] (l : List T) (k : ℕ) :
    (k ≤ (iterable_to_sorted_set l).length →
      ∀ fuel, Nat.choose ((iterable_to_sorted_set l).length + k - 1) k ≤ fuel →
        ((CombinationsWithReplacement.of_size l k).outputs fuel).length =
          Nat.choose ((iterable_to_sorted_set l).length + k - 1) k) ∧
    ((iterable_to_sorted_set l).length < k →
      ∀ fuel, (CombinationsWithReplacement.of_size l k).outputs fuel = []) := by
  constructor
  · intro hk fuel hfuel
    have hhead : (cwr (List.range (iterable_to_sorted_set l).length) k).head? =
        some (List.replicate k 0) := by
      cases k with
      | zero => rw [cwr_zero]; rfl
      | succ k2 =>
        rw [List.range_eq_range' (iterable_to_sorted_set l).length,
          cwr_head (k2 + 1) (iterable_to_sorted_set l).length 0 (by omega)]
    have hrun := CombinationsWithReplacement.outputs_runW
      (cwr (List.range (iterable_to_sorted_set l).length) k)
      (CombinationsWithReplacement.of_size l k) rfl hhead
      (cwr_chain_posAdvW (iterable_to_sorted_set l).length k)
      (cwr_last_posAdvW hk)
      (cwr_valid (iterable_to_sorted_set l) k hk) fuel
    rw [hrun, List.take_of_length_le (by rw [cwr_length, List.length_range]; exact hfuel),
      List.length_map, cwr_length, List.length_range]
  · intro hk fuel
    cases fuel with
    | zero => rfl
    | succ n =>
      have hcombo : (CombinationsWithReplacement.of_size l k).get_current_combination = none := by
        simp [CombinationsWithReplacement.get_current_combination,
          CombinationsWithReplacement.of_size, hk]
      have hnd := CombinationsWithReplacement.next_not_doneW
        (c := CombinationsWithReplacement.of_size l k) rfl
      simp only [CombinationsWithReplacement.outputs, hnd, hcombo]

theorem claim_c5_amended_witness :
    2 ≤ (iterable_to_sorted_set ([0, 1] : List ℕ)).length ∧
      Nat.choose ((iterable_to_sorted_set ([0, 1] : List ℕ)).length + 2 - 1) 2 ≤ 4 ∧
      ((CombinationsWithReplacement.of_size ([0, 1] : List ℕ) 2).outputs 4).length =
        Nat.choose ((iterable_to_sorted_set ([0, 1] : List ℕ)).length + 2 - 1) 2 :=
  ⟨by decide, by decide, (claim_c5_amended [0, 1] 2).1 (by decide) 4 (by decide)⟩

/-! ## Chain properties of the all-sizes combination enumeration -/

theorem chain'_imp_mem {α : Type} {R S : α → α → Prop} :
    ∀ (l : List α), List.Chain' R l → (∀ a ∈ l, ∀ b ∈ l, R a b → S a b) →
      List.Chain' S l := by
  intro l
  induction l with
  | nil => intro _ _; exact List.chain'_nil
  | cons a t ih =>
    intro hc himp
    rw [List.chain'_cons'] at hc ⊢
    refine ⟨?_, ih hc.2 (fun p hp q hq hr =>
      himp p (List.mem_cons_of_mem a hp) q (List.mem_cons_of_mem a hq) hr)⟩
    intro y hy
    exact himp a (List.mem_cons_self a t) y
      (List.mem_cons_of_mem a (List.mem_of_mem_head? hy)) (hc.1 y hy)

theorem mtnpGo_single (N x : ℕ) :
    mtnpGo N [x] = if N - 1 ≤ x then none else some [x + 1] := by
  simp only [mtnpGo]

theorem mtnpGo_cons_cons_of_tail_none {N x q0 : ℕ} {t : List ℕ}
    (h : mtnpGo N (q0 :: t) = none) :
    mtnpGo N (x :: q0 :: t) =
      if N - 1 ≤ x then none
      else if x < q0 - 1 then some ((x + 1) :: List.range' (x + 2) (q0 :: t).length)
      else none := by
  rw [mtnpGo_cons_of_tail_none h]

theorem mtnpGo_lex {N : ℕ} : ∀ {p q : List ℕ}, mtnpGo N p = some q →
    p.length = q.length ∧ List.Lex (· < ·) p q := by
  intro p
  induction p with
  | nil => intro q h; simp [mtnpGo] at h
  | cons x rest ih =>
    intro q h
    cases h1 : mtnpGo N rest with
    | some r2 =>
      rw [mtnpGo_cons_of_tail_some h1] at h
      simp only [Option.some.injEq] at h
      subst h
      obtain ⟨hlen, hlex⟩ := ih h1
      exact ⟨by simp [hlen], List.Lex.cons hlex⟩
    | none =>
      cases rest with
      | nil =>
        rw [mtnpGo_single] at h
        by_cases h2 : N - 1 ≤ x
        · rw [if_pos h2] at h
          exact absurd h (by simp)
        · rw [if_neg h2] at h
          simp only [Option.some.injEq] at h
          subst h
          exact ⟨rfl, List.Lex.rel (Nat.lt_succ_self x)⟩
      | cons q0 t =>
        rw [mtnpGo_cons_cons_of_tail_none h1] at h
        by_cases h2 : N - 1 ≤ x
        · rw [if_pos h2] at h
          exact absurd h (by simp)
        · rw [if_neg h2] at h
          by_cases h3 : x < q0 - 1
          · rw [if_pos h3] at h
            simp only [Option.some.injEq] at h
            subst h
            exact ⟨by simp [List.length_range'], List.Lex.rel (Nat.lt_succ_self x)⟩
          · rw [if_neg h3] at h
            exact absurd h (by simp)

theorem posAdv_true_of_none {N : ℕ} {p : List ℕ} (h : mtnpGo N p = none) :
    posAdv true N p = if N ≤ p.length then none else some (List.range (p.length + 1)) := by
  by_cases hN : N = 0
  · subst hN
    simp [posAdv]
  · simp [posAdv, hN, h]

theorem posAdv_some_cases {b : Bool} {N : ℕ} {p q : List ℕ} (h : posAdv b N p = some q) :
    mtnpGo N p = some q ∨
      (mtnpGo N p = none ∧ p.length < N ∧ q = List.range (p.length + 1)) := by
  by_cases hN : N = 0
  · exfalso
    subst hN
    by_cases hb : b = true <;> simp [posAdv, hb] at h
  · unfold posAdv at h
    rw [if_neg hN] at h
    cases hgo : mtnpGo N p with
    | some r =>
      rw [hgo] at h
      simp only [Option.some.injEq] at h
      exact Or.inl (congrArg some h)
    | none =>
      rw [hgo] at h
      right
      by_cases hb : b = true
      · rw [if_pos hb] at h
        by_cases hle : N ≤ p.length
        · rw [if_pos hle] at h
          exact absurd h (by simp)
        · rw [if_neg hle] at h
          simp only [Option.some.injEq] at h
          exact ⟨rfl, by omega, h.symm⟩
      · rw [if_neg hb] at h
        exact absurd h (by simp)

theorem allCombs_chain (N : ℕ) :
    List.Chain' (fun p q => posAdv true N p = some q)
      (((List.range (N + 1)).map (fun k => combs (List.range N) k)).flatten) := by
  have hnil : ([] : List (List ℕ)) ∉ (List.range (N + 1)).map (fun k => combs (List.range N) k) := by
    intro hmem
    obtain ⟨k, hk, hknil⟩ := List.mem_map.mp hmem
    rw [List.mem_range] at hk
    exact combs_ne_nil (l := List.range N) (by rw [List.length_range]; omega) hknil
  rw [List.chain'_flatten hnil]
  constructor
  · intro b hb
    obtain ⟨k, hk, rfl⟩ := List.mem_map.mp hb
    refine List.Chain'.imp (fun p q h => mtnpGo_posAdv h) ?_
    rw [List.range_eq_range' N]
    exact combs_chain N 0 k N (by omega)
  · rw [List.chain'_map, List.chain'_range_succ]
    intro m hm x hx y hy
    rw [List.range_eq_range' N, combs_head (m + 1) N 0 (by omega)] at hy
    have hy2 : List.range' 0 (m + 1) = y := by simpa using hy
    cases m with
    | zero =>
      rw [combs_zero] at hx
      have hx2 : [] = x := by simpa using hx
      subst hx2
      subst hy2
      rw [posAdv_true_of_none (show mtnpGo N [] = none from rfl)]
      rw [if_neg (show ¬ N ≤ List.length ([] : List ℕ) by simp only [List.length_nil]; omega)]
      simp [List.range_eq_range']
    | succ m2 =>
      rw [List.range_eq_range' N, combs_getLast N 0 (m2 + 1) (by omega) (by omega)] at hx
      have hx2 : List.range' (0 + N - (m2 + 1)) (m2 + 1) = x := by simpa using hx
      subst hx2
      subst hy2
      rw [posAdv_true_of_none (mtnpGo_range'_none (m2 + 1) (0 + N - (m2 + 1)) N (by omega))]
      rw [List.length_range', if_neg (show ¬ N ≤ m2 + 1 by omega)]
      simp [List.range_eq_range']

theorem allCombs_head (N : ℕ) :
    ((((List.range (N + 1)).map (fun k => combs (List.range N) k)).flatten).head?) =
      some [] := by
  rw [show List.range (N + 1) = 0 :: List.range' 1 N by
    rw [List.range_eq_range']; exact List.range'_succ 0 N 1]
  rw [List.map_cons, combs_zero, List.flatten_cons]
  rfl

theorem allCombs_getLast (N : ℕ) : ∀ p,
    ((((List.range (N + 1)).map (fun k => combs (List.range N) k)).flatten).getLast?) =
      some p → posAdv true N p = none := by
  intro p hp
  rw [List.range_succ, List.map_append, List.flatten_append] at hp
  rw [show (List.map (fun k => combs (List.range N) k) [N]).flatten =
    combs (List.range N) N by simp] at hp
  rw [List.getLast?_append_of_ne_nil _
    (combs_ne_nil (l := List.range N) (by rw [List.length_range]))] at hp
  cases N with
  | zero =>
    rw [combs_zero] at hp
    have hp2 : [] = p := by simpa using hp
    subst hp2
    rw [posAdv_true_of_none (show mtnpGo 0 [] = none from rfl)]
    simp
  | succ N2 =>
    rw [List.range_eq_range' (N2 + 1), combs_getLast (N2 + 1) 0 (N2 + 1) (by omega)
      (by omega)] at hp
    have hp2 : List.range' (0 + (N2 + 1) - (N2 + 1)) (N2 + 1) = p := by simpa using hp
    subst hp2
    rw [posAdv_true_of_none
      (mtnpGo_range'_none (N2 + 1) (0 + (N2 + 1) - (N2 + 1)) (N2 + 1) (by omega))]
    rw [List.length_range', if_pos (le_refl _)]

theorem allCombs_valid {T : Type} (es : List T) :
    ∀ p ∈ (((List.range (es.length + 1)).map
        (fun k => combs (List.range es.length) k)).flatten),
      p.length ≤ es.length ∧ (getElems es p).isSome := by
  intro p hp
  rw [List.mem_flatten] at hp
  obtain ⟨b, hb, hpb⟩ := hp
  obtain ⟨k, hk, rfl⟩ := List.mem_map.mp hb
  obtain ⟨hlen, hmem⟩ := combs_mem (List.range es.length) k p hpb
  rw [List.mem_range] at hk
  refine ⟨by omega, ?_⟩
  obtain ⟨out, hout, _⟩ := getElems_eq_some es (fun i hi => List.mem_range.mp (hmem i hi))
  rw [hout]
  rfl

theorem sum_map_range (n : ℕ) (g : ℕ → ℕ) :
    ((List.range n).map g).sum = ∑ i ∈ Finset.range n, g i := by
  induction n with
  | zero => simp
  | succ n ihn =>
    rw [List.range_succ, List.map_append, List.sum_append, Finset.sum_range_succ, ihn]
    simp

theorem allCombs_length (N : ℕ) :
    ((((List.range (N + 1)).map (fun k => combs (List.range N) k)).flatten).length) =
      2 ^ N := by
  rw [List.length_flatten, List.map_map]
  have hfun : (List.length ∘ fun k => combs (List.range N) k) =
      fun k => Nat.choose N k := by
    funext k
    simp [combs_length, List.length_range]
  rw [hfun, sum_map_range, Nat.sum_range_choose]

/-- Claim C7: for every domain of size N, the all-sizes combinations
generator yields exactly 2 to the power N results (the power set), ordered by
increasing size and lexicographically within each size (each consecutive pair
is increasing under the size-then-lexicographic order). -/
theorem claim_c7 {T : Type} [LinearOrder T] (l : List T) :
    ∀ fuel, 2 ^ (iterable_to_sorted_set l).length ≤ fuel →
      ((Combinations.all l).outputs fuel).length = 2 ^ (iterable_to_sorted_set l).length ∧
      List.Chain' sizeLex ((Combinations.all l).outputs fuel) := by
  intro fuel hfuel
  have hrun := Combinations.outputs_run
    (((List.range ((iterable_to_sorted_set l).length + 1)).map
      (fun k => combs (List.range (iterable_to_sorted_set l).length) k)).flatten)
    (Combinations.all l) rfl (allCombs_head (iterable_to_sorted_set l).length)
    (allCombs_chain (iterable_to_sorted_set l).length)
    (allCombs_getLast (iterable_to_sorted_set l).length)
    (allCombs_valid (iterable_to_sorted_set l)) fuel
  rw [List.take_of_length_le (by rw [allCombs_length]; exact hfuel)] at hrun
  refine ⟨?_, ?_⟩
  · rw [hrun, List.length_map, allCombs_length]
  · rw [hrun]
    simp only [Combinations.all]
    rw [List.chain'_map]
    apply chain'_imp_mem _ (allCombs_chain (iterable_to_sorted_set l).length)
    intro p hp q hq hrel
    obtain ⟨hplen, hpsome⟩ := allCombs_valid (iterable_to_sorted_set l) p hp
    obtain ⟨hqlen, hqsome⟩ := allCombs_valid (iterable_to_sorted_set l) q hq
    obtain ⟨po, hpo⟩ := Option.isSome_iff_exists.mp hpsome
    obtain ⟨qo, hqo⟩ := Option.isSome_iff_exists.mp hqsome
    rw [hpo, hqo]
    simp only [Option.getD_some, sizeLex]
    have hplen2 := getElems_length hpo
    have hqlen2 := getElems_length hqo
    rcases posAdv_some_cases hrel with hgo | ⟨hgo, hlt, rfl⟩
    · obtain ⟨hlen, hlex⟩ := mtnpGo_lex hgo
      right
      constructor
      · rw [hplen2, hqlen2, hlen]
      · exact getElems_lex (iterable_to_sorted_set_sorted l) hlex hpo hqo
    · left
      rw [hplen2, hqlen2, List.length_range]
      omega

theorem claim_c7_witness :
    2 ^ (iterable_to_sorted_set ([0, 1] : List ℕ)).length ≤ 4 ∧
      ((Combinations.all ([0, 1] : List ℕ)).outputs 4).length =
        2 ^ (iterable_to_sorted_set ([0, 1] : List ℕ)).length :=
  ⟨by decide, (claim_c7 [0, 1] 4 (by decide)).1⟩

/-- Claim C8: domain normalization for the two combination engines is
idempotent and insensitive to input order and duplicates; two inputs with the
same set of values yield identical generators and identical output
sequences. -/
theorem claim_c8 {T : Type} [LinearOrder T] (l1 l2 : List T)
    (h : ∀ x, x ∈ l1 ↔ x ∈ l2) :
    (∀ l : List T,
      iterable_to_sorted_set (iterable_to_sorted_set l) = iterable_to_sorted_set l) ∧
    Combinations.all l1 = Combinations.all l2 ∧
    (∀ k, Combinations.of_size l1 k = Combinations.of_size l2 k) ∧
    CombinationsWithReplacement.all l1 = CombinationsWithReplacement.all l2 ∧
    (∀ k, CombinationsWithReplacement.of_size l1 k =
      CombinationsWithReplacement.of_size l2 k) ∧
    (∀ fuel, (Combinations.all l1).outputs fuel = (Combinations.all l2).outputs fuel) ∧
    (∀ k fuel, (Combinations.of_size l1 k).outputs fuel =
      (Combinations.of_size l2 k).outputs fuel) ∧
    (∀ fuel, (CombinationsWithReplacement.all l1).outputs fuel =
      (CombinationsWithReplacement.all l2).outputs fuel) ∧
    (∀ k fuel, (CombinationsWithReplacement.of_size l1 k).outputs fuel =
      (CombinationsWithReplacement.of_size l2 k).outputs fuel) := by
  have hset : iterable_to_sorted_set l1 = iterable_to_sorted_set l2 :=
    iterable_to_sorted_set_ext h
  refine ⟨iterable_to_sorted_set_idem, ?_, ?_, ?_, ?_, ?_, ?_, ?_, ?_⟩
  · unfold Combinations.all
    rw [hset]
  · intro k
    unfold Combinations.of_size
    rw [hset]
  · unfold CombinationsWithReplacement.all
    rw [hset]
  · intro k
    unfold CombinationsWithReplacement.of_size
    rw [hset]
  · intro fuel
    unfold Combinations.all
    rw [hset]
  · intro k fuel
    unfold Combinations.of_size
    rw [hset]
  · intro fuel
    unfold CombinationsWithReplacement.all
    rw [hset]
  · intro k fuel
    unfold CombinationsWithReplacement.of_size
    rw [hset]

theorem claim_c8_witness :
    (∀ x : ℕ, x ∈ ([2, 1, 2, 1, 3] : List ℕ) ↔ x ∈ ([1, 2, 3] : List ℕ)) ∧
      Combinations.all ([2, 1, 2, 1, 3] : List ℕ) = Combinations.all ([1, 2, 3] : List ℕ) := by
  have hmem : ∀ x : ℕ, x ∈ ([2, 1, 2, 1, 3] : List ℕ) ↔ x ∈ ([1, 2, 3] : List ℕ) := by
    intro x
    simp only [List.mem_cons, List.not_mem_nil, or_false]
    tauto
  exact ⟨hmem, (claim_c8 [2, 1, 2, 1, 3] [1, 2, 3] hmem).2.1⟩

/-! ## Idempotent termination lemmas -/

theorem Combinations.done_or_over_step {T : Type} {c : Combinations T}
    (h : c.done = true ∨ c.elements.length < c.positions.length) :
    (Combinations.next c).1 = none ∧
    ((Combinations.next c).2.done = true ∨
      (Combinations.next c).2.elements.length < (Combinations.next c).2.positions.length) := by
  cases hdd : c.done with
  | true =>
    rw [Combinations.next_done hdd]
    exact ⟨rfl, Or.inl hdd⟩
  | false =>
    have hlen : c.elements.length < c.positions.length := by
      rcases h with hd | hlen
      · rw [hdd] at hd
        exact absurd hd (by simp)
      · exact hlen
    rw [Combinations.next_not_done hdd]
    have hcombo : c.get_current_combination = none := by
      unfold Combinations.get_current_combination
      rw [if_neg (by simp [hdd]), if_pos hlen]
    refine ⟨hcombo, ?_⟩
    cases hadv : posAdv c.all_sizes c.elements.length c.positions with
    | none => exact Or.inl rfl
    | some ps =>
      right
      show c.elements.length < ps.length
      rcases posAdv_some_cases hadv with hgo | ⟨_, hlt, _⟩
      · have hlen2 := mtnpGo_length hgo
        omega
      · omega

theorem posAdvW_some_length {b : Bool} {N : ℕ} {p q : List ℕ}
    (h : posAdvW b N p = some q) : q.length = p.length ∨ p.length < N := by
  by_cases hN : N = 0
  · exfalso
    subst hN
    by_cases hb : b = true <;> simp [posAdvW, hb] at h
  · unfold posAdvW at h
    rw [if_neg hN] at h
    cases hgo : cwrGo N p with
    | some r =>
      rw [hgo] at h
      simp only [Option.some.injEq] at h
      left
      rw [← h]
      exact cwrGo_length hgo
    | none =>
      rw [hgo] at h
      by_cases hb : b = true
      · rw [if_pos hb] at h
        by_cases hle : N ≤ p.length
        · rw [if_pos hle] at h
          exact absurd h (by simp)
        · right
          omega
      · rw [if_neg hb] at h
        exact absurd h (by simp)

theorem CombinationsWithReplacement.done_or_over_stepW {T : Type}
    {c : CombinationsWithReplacement T}
    (h : c.done = true ∨ c.elements.length < c.positions.length) :
    (CombinationsWithReplacement.next c).1 = none ∧
    ((CombinationsWithReplacement.next c).2.done = true ∨
      (CombinationsWithReplacement.next c).2.elements.length <
        (CombinationsWithReplacement.next c).2.positions.length) := by
  cases hdd : c.done with
  | true =>
    rw [CombinationsWithReplacement.next_doneW hdd]
    exact ⟨rfl, Or.inl hdd⟩
  | false =>
    have hlen : c.elements.length < c.positions.length := by
      rcases h with hd | hlen
      · rw [hdd] at hd
        exact absurd hd (by simp)
      · exact hlen
    rw [CombinationsWithReplacement.next_not_doneW hdd]
    have hcombo : c.get_current_combination = none := by
      unfold CombinationsWithReplacement.get_current_combination
      rw [if_neg (by simp [hdd]), if_pos hlen]
    refine ⟨hcombo, ?_⟩
    cases hadv : posAdvW c.all_sizes c.elements.length c.positions with
    | none => exact Or.inl rfl
    | some ps =>
      right
      show c.elements.length < ps.length
      rcases posAdvW_some_length hadv with hlen2 | hlt
      · omega
      · omega

theorem Permutations.fill_false {T : Type} {s s2 : Permutations T}
    (h : Permutations.fill_remaining_perm s = Except.ok (false, s2)) : s2.done = true := by
  unfold Permutations.fill_remaining_perm at h
  by_cases hl : s.elements.length < s.perm_length
  · rw [if_pos hl] at h
    simp only [Except.ok.injEq, Prod.mk.injEq, true_and] at h
    rw [← h]
  · rw [if_neg hl] at h
    cases hf : fillGo (s.perm_length - s.stack.length) s with
    | error e =>
      rw [hf] at h
      simp [Except.map] at h
    | ok s3 =>
      rw [hf] at h
      simp [Except.map] at h

theorem permLoopGo_false {T : Type} : ∀ (stk : List ℕ) (s s2 : Permutations T),
    permLoopGo stk s = Except.ok (false, s2) → s2.done = true := by
  intro stk
  induction stk with
  | nil =>
    intro s s2 h
    unfold permLoopGo at h
    by_cases hA : s.all_sizes = true
    · rw [if_pos hA] at h
      exact Permutations.fill_false h
    · rw [if_neg hA] at h
      simp only [Except.ok.injEq, Prod.mk.injEq, true_and] at h
      rw [← h]
  | cons curr rest ih =>
    intro s s2 h
    rw [permLoopGo] at h
    split at h
    · exact ih _ s2 h
    · split at h
      · exact absurd h (by simp)
      · exact ih _ s2 h
      · simp only [Except.ok.injEq, Prod.mk.injEq] at h
        exact absurd h.1 (by simp)

theorem Permutations.next_doneP {T : Type} {s : Permutations T} (h : s.done = true) :
    Permutations.next s = Except.ok (none, s) := by
  unfold Permutations.next
  rw [if_pos h]

theorem Permutations.next_none_done {T : Type} {s s2 : Permutations T}
    (h : Permutations.next s = Except.ok (none, s2)) : s2.done = true := by
  unfold Permutations.next at h
  by_cases hd : s.done = true
  · rw [if_pos hd] at h
    simp only [Except.ok.injEq, Prod.mk.injEq, true_and] at h
    rw [← h]
    exact hd
  · rw [if_neg hd] at h
    cases hg : getElems s.elements (s.stack.reverse.map (fun i => i - 1)) with
    | none =>
      rw [hg] at h
      exact absurd h (by simp)
    | some perm =>
      rw [hg] at h
      cases hl : permLoopGo s.stack s with
      | error e =>
        rw [hl] at h
        exact absurd h (by simp)
      | ok bs =>
        obtain ⟨b, s3⟩ := bs
        rw [hl] at h
        cases b with
        | true =>
          simp only [Except.ok.injEq, Prod.mk.injEq] at h
          exact absurd h.1 (by simp)
        | false =>
          simp only [Except.ok.injEq, Prod.mk.injEq, true_and] at h
          rw [← h]
          exact permLoopGo_false s.stack s s3 hl

/-- Claim C9: for each of the three generators, once an advance has signaled
end-of-sequence, every subsequent advance on the same instance also signals
end-of-sequence, for every domain and every mode.  For the two combination
engines the side condition records that the `none` is the engine's own
end-of-sequence signal (`done` set, or an unsatisfiable fixed size) and not
the model's encoding of the unreachable out-of-range `unwrap`; for the
permutations engine panics are distinguished by `Except.error`, so no side
condition is needed. -/
theorem claim_c9 {T : Type} :
    (∀ c : Combinations T, (Combinations.next c).1 = none →
      c.done = true ∨ c.elements.length < c.positions.length →
      ∀ n : ℕ, (Combinations.next
        (Combinations.stepState^[n] (Combinations.stepState c))).1 = none) ∧
    (∀ c : CombinationsWithReplacement T, (CombinationsWithReplacement.next c).1 = none →
      c.done = true ∨ c.elements.length < c.positions.length →
      ∀ n : ℕ, (CombinationsWithReplacement.next
        (CombinationsWithReplacement.stepState^[n]
          (CombinationsWithReplacement.stepState c))).1 = none) ∧
    (∀ s s2 : Permutations T, Permutations.next s = Except.ok (none, s2) →
      Permutations.next s2 = Except.ok (none, s2)) := by
  refine ⟨?_, ?_, ?_⟩
  · intro c _ h2
    have key : ∀ (m : ℕ) (d : Combinations T),
        d.done = true ∨ d.elements.length < d.positions.length →
        (Combinations.next (Combinations.stepState^[m] d)).1 = none := by
      intro m
      induction m with
      | zero =>
        intro d hd
        simpa using (Combinations.done_or_over_step hd).1
      | succ m ihm =>
        intro d hd
        rw [Function.iterate_succ_apply]
        exact ihm (Combinations.stepState d) (Combinations.done_or_over_step hd).2
    exact fun n => key n (Combinations.stepState c) (Combinations.done_or_over_step h2).2
  · intro c _ h2
    have key : ∀ (m : ℕ) (d : CombinationsWithReplacement T),
        d.done = true ∨ d.elements.length < d.positions.length →
        (CombinationsWithReplacement.next
          (CombinationsWithReplacement.stepState^[m] d)).1 = none := by
      intro m
      induction m with
      | zero =>
        intro d hd
        simpa using (CombinationsWithReplacement.done_or_over_stepW hd).1
      | succ m ihm =>
        intro d hd
        rw [Function.iterate_succ_apply]
        exact ihm (CombinationsWithReplacement.stepState d)
          (CombinationsWithReplacement.done_or_over_stepW hd).2
    exact fun n => key n (CombinationsWithReplacement.stepState c)
      (CombinationsWithReplacement.done_or_over_stepW h2).2
  · intro s s2 h
    have hdone := Permutations.next_none_done h
    have h2 := Permutations.next_doneP hdone
    exact h2

theorem claim_c9_witness :
    (Combinations.next (Combinations.of_size ([0] : List ℕ) 2)).1 = none ∧
    (Combinations.next (Combinations.stepState^[0]
      (Combinations.stepState (Combinations.of_size ([0] : List ℕ) 2)))).1 = none ∧
    (CombinationsWithReplacement.next
      (CombinationsWithReplacement.of_size ([0] : List ℕ) 2)).1 = none ∧
    (CombinationsWithReplacement.next (CombinationsWithReplacement.stepState^[0]
      (CombinationsWithReplacement.stepState
        (CombinationsWithReplacement.of_size ([0] : List ℕ) 2)))).1 = none ∧
    Permutations.next (Permutations.mk ([0] : List ℕ) (AvailableList.new 1) [] 2 false true) =
      Except.ok (none,
        Permutations.mk ([0] : List ℕ) (AvailableList.new 1) [] 2 false true) :=
  ⟨rfl,
    (claim_c9 (T := ℕ)).1 (Combinations.of_size [0] 2) rfl (Or.inr (by decide)) 0,
    rfl,
    (claim_c9 (T := ℕ)).2.1 (CombinationsWithReplacement.of_size [0] 2) rfl
      (Or.inr (by decide)) 0,
    (claim_c9 (T := ℕ)).2.2
      (Permutations.mk ([0] : List ℕ) (AvailableList.new 1) [] 2 false true)
      (Permutations.mk ([0] : List ℕ) (AvailableList.new 1) [] 2 false true) rfl⟩

/-! ## Equivalence of the src/lib.rs engine and the src/combinations.rs engine -/

theorem libMtnpGo_eq : ∀ (N : ℕ) (p : List ℕ), Lib.mtnpGo N p = mtnpGo N p := by
  intro N p
  induction p with
  | nil => rfl
  | cons x rest ih => simp only [Lib.mtnpGo, mtnpGo, ih]

theorem libNext_done {T : Type} {c : Lib.Combinations T} (h : c.done = true) :
    Lib.Combinations.next c = (none, c) := by
  simp [Lib.Combinations.next, h]

theorem libNext_not_done {T : Type} {c : Lib.Combinations T} (h : c.done = false) :
    Lib.Combinations.next c = (Lib.Combinations.get_current_combination c,
      match posAdv c.all_sizes c.elements.length c.positions with
      | some ps => { c with positions := ps }
      | none => { c with done := true }) := by
  simp only [Lib.Combinations.next, h, Bool.false_eq_true, if_false, posAdv,
    Lib.Combinations.move_to_next_position, Lib.Combinations.move_to_next_set_size,
    libMtnpGo_eq]
  cases h1 : (if c.elements.length = 0 then none else mtnpGo c.elements.length c.positions) with
  | some p => rfl
  | none =>
    cases hA : c.all_sizes with
    | false => rfl
    | true =>
      cases h2 : (if c.elements.length ≤ c.positions.length then (none : Option (List ℕ))
          else some (List.range (c.positions.length + 1))) with
      | some p => rfl
      | none => rfl

theorem libToMod_next {T : Type} (c : Lib.Combinations T) :
    Combinations.next (libToMod c) =
      ((Lib.Combinations.next c).1, libToMod (Lib.Combinations.next c).2) := by
  obtain ⟨es, ps, a, d⟩ := c
  cases d with
  | true =>
    have h1 := Combinations.next_done (c := libToMod (⟨es, ps, a, true⟩ : Lib.Combinations T)) rfl
    have h2 := libNext_done (c := (⟨es, ps, a, true⟩ : Lib.Combinations T)) rfl
    rw [h1, h2]
  | false =>
    have h1 := Combinations.next_not_done
      (c := libToMod (⟨es, ps, a, false⟩ : Lib.Combinations T)) rfl
    have h2 := libNext_not_done (c := (⟨es, ps, a, false⟩ : Lib.Combinations T)) rfl
    rw [h1, h2]
    dsimp only [libToMod]
    cases hadv : posAdv a es.length ps with
    | some qs => rfl
    | none => rfl

theorem libToMod_outputs {T : Type} : ∀ (fuel : ℕ) (c : Lib.Combinations T),
    Lib.Combinations.outputs c fuel = Combinations.outputs (libToMod c) fuel := by
  intro fuel
  induction fuel with
  | zero => intro c; rfl
  | succ n ih =>
    intro c
    rw [Lib.Combinations.outputs, Combinations.outputs, libToMod_next]
    cases h1 : Lib.Combinations.next c with
    | mk o c2 =>
      cases o with
      | none => rfl
      | some x =>
        dsimp only
        rw [ih]

/-- Claim C10: the `Combinations` engine of src/lib.rs and the `Combinations`
engine of src/combinations.rs are behaviorally equivalent: for every input
sequence and every construction (`all`, or `of_size` with any size), repeated
advances produce identical output sequences. -/
theorem claim_c10 {T : Type} [LinearOrder T] (l : List T) (k fuel : ℕ) :
    Lib.Combinations.outputs (Lib.Combinations.of_size l k) fuel =
      Combinations.outputs (Combinations.of_size l k) fuel ∧
    Lib.Combinations.outputs (Lib.Combinations.all l) fuel =
      Combinations.outputs (Combinations.all l) fuel := by
  constructor
  · rw [libToMod_outputs fuel]
    have hs : libToMod (Lib.Combinations.of_size l k) = Combinations.of_size l k := rfl
    rw [hs]
  · rw [libToMod_outputs fuel]
    have hs : libToMod (Lib.Combinations.all l) = Combinations.all l := rfl
    rw [hs]

/-! ## The permutation engine claims (the code contradicts its own doc-tests) -/

/-- Claim C1 (code bug): with the full-length constructor over a 3-element
domain the target length does not exceed the domain size, yet the very first
advance panics inside the fill routine (the available list is exhausted while
the stack is shorter than the target length), because `next` runs
`fill_remaining_perm` before pushing the swapped-in entry back onto the
stack.  The claim says this failure branch is unreachable whenever
`perm_length ≤ N`. -/
theorem claim_c1_fill_panic_reachable :
    ∃ s : Permutations Char, Permutations.new ['x', 'y', 'z'] = Except.ok s ∧
      s.perm_length ≤ s.elements.length ∧ Permutations.next s = Except.error () :=
  ⟨_, rfl, by decide, rfl⟩

/-- Claim C2 (code bug): the full-length permutations generator over
`['x', 'y', 'z']` is asserted (by the claim and by the source's own doc-test)
to yield six permutations, but the first advance panics instead of returning
`['x', 'y', 'z']`. -/
theorem claim_c2_xyz_panics :
    Except.bind (Permutations.new (['x', 'y', 'z'] : List Char)) Permutations.next =
      Except.error () := rfl

/-- Claim C3 (code bug): for domain size N = 1 and requested length k = 0 the
claim demands N!/(N-k)! = 1 result (one empty permutation), but the generator
yields none: the fixed-length exhaustion path returns end-of-sequence without
emitting the captured permutation. -/
theorem claim_c3_zero_length_yields_nothing :
    ∃ s : Permutations ℕ, Permutations.of_length [0] 0 = Except.ok s ∧
      Permutations.outputs s 2 = [] ∧
      Nat.factorial 1 / Nat.factorial (1 - 0) = 1 :=
  ⟨_, rfl, rfl, rfl⟩

/-- Claim C4 (code bug for the permutations engine): the fixed-length
permutations generator over `[0, 1]` with requested length 1 emits `[0]`,
then `[0, 1]` twice in a row — an adjacent pair of equal (hence not strictly
increasing) results, and a repeated result. -/
theorem claim_c4_permutations_repeat :
    ∃ s : Permutations ℕ, Permutations.of_length [0, 1] 1 = Except.ok s ∧
      Permutations.outputs s 3 = [[0], [0, 1], [0, 1]] :=
  ⟨_, rfl, rfl⟩
